import Mathlib

/-!
# Verification of the sudoku-solver response pipeline

A shallow embedding of the response-handling path of `src/app.py`
(`clean_json_response`, the `json.loads` call inside
`detect_and_solve_sudoku`, `display_grids` / `format_grid`, and the
solve branch of `main`), together with theorems settling the frozen
claims about the specification.

Strings are modelled as `List Char`.  The two `re.sub` calls of
`clean_json_response` are embedded as executable scanners that follow
Python's leftmost-match, first-alternative, greedy semantics for the
concrete patterns that appear in the source.  `json.loads` is embedded
as a fuel-based strict recursive-descent parser following CPython's
`json` module semantics for the JSON fragment relevant to this program
(objects, arrays, unbounded integers, strings with escapes, literals;
floating-point numbers, `NaN`/`Infinity` and `\u` surrogate pairs are
outside the modelled fragment — no claim concerns them, and the grids
of this program are integer-valued).
-/

/-- ASCII whitespace as matched by Python's regex `\s` on the text
side: space, tab, newline, carriage return, vertical tab, form feed. -/
def isREWS (c : Char) : Bool :=
  c = ' ' || c = '\t' || c = '\n' || c = '\r' || c = Char.ofNat 11 || c = Char.ofNat 12

/-- The backtick character (written via its code point). -/
def tick : Char := Char.ofNat 96

/-- `strPre pat s` holds when `pat` is an initial segment of `s`. -/
def strPre : List Char → List Char → Bool
  | [], _ => true
  | _ :: _, [] => false
  | a :: as, b :: bs => a = b && strPre as bs

/-- The text of the tagged fence opener, `` ```json ``. -/
def fenceTag : List Char := "```json".toList

/-- Three backticks. -/
def fenceBar : List Char := "```".toList

/-- One attempt of the pattern `` ```json\s*|\s*``` `` at the current
position, mirroring Python `re`: the first alternative is tried first;
`\s*` is greedy; on success the remainder of the text after the match
is returned.  In the second alternative the greedy `\s*` must be
followed immediately by the three backticks, so the match exists
exactly when the maximal whitespace run from this position is followed
by them. -/
def matchAlt (s : List Char) : Option (List Char) :=
  if strPre fenceTag s then
    some ((s.drop 7).dropWhile isREWS)
  else
    let r := s.dropWhile isREWS
    if strPre fenceBar r then some (r.drop 3) else none

/-- `re.sub(r'```json\s*|\s*```', '', s)`: scan left to right; at each
position, if the pattern matches, drop the match and continue after
it, otherwise keep the character and move on.  The pattern never
matches the empty string (it always consumes three backticks), so the
scan is the whole substitution.  Fuel `s.length` always suffices since
every step strictly shortens the text. -/
def subFenceAux : Nat → List Char → List Char
  | 0, s => s
  | f + 1, s =>
    match s with
    | [] => []
    | c :: rest =>
      match matchAlt (c :: rest) with
      | some rem => subFenceAux f rem
      | none => c :: subFenceAux f rest

def subFence (s : List Char) : List Char := subFenceAux s.length s

/-- `re.sub(r'^[^{]*', '', s)`: remove the leading run of characters
other than `{` (everything, when no `{` occurs). -/
def dropToBrace (s : List Char) : List Char := s.dropWhile (fun c => c ≠ '{')

/-- `re.sub(r'[^}]*$', '', s)`: remove the trailing run of characters
other than `}` (everything, when no `}` occurs).  Python's `$` also
matches before a final newline, but a newline is itself `[^}]`, so the
net effect is exactly dropping the trailing non-`}` run. -/
def dropAfterBrace (s : List Char) : List Char :=
  (s.reverse.dropWhile (fun c => c ≠ '}')).reverse

/-- `clean_json_response` from `src/app.py` lines 26-33. -/
def clean_json_response (response_text : List Char) : List Char :=
  dropAfterBrace (dropToBrace (subFence response_text))

/-! ## The JSON value model and the embedding of `json.loads` -/

/-- JSON values as produced by `json.loads` for the fragment relevant
to this program.  Objects are insertion-ordered key/value lists, as in
a Python `dict`; numbers are unbounded integers. -/
inductive Json where
  | null
  | bool (b : Bool)
  | num (n : Int)
  | str (s : List Char)
  | arr (elems : List Json)
  | obj (entries : List (List Char × Json))
deriving Repr

instance : Inhabited Json := ⟨Json.null⟩

/-- JSON whitespace skipped by the Python scanner: space, tab,
newline, carriage return. -/
def isJWS (c : Char) : Bool := c = ' ' || c = '\t' || c = '\n' || c = '\r'

def skipJWS (s : List Char) : List Char := s.dropWhile isJWS

def isDig (c : Char) : Bool := 48 ≤ c.toNat && c.toNat ≤ 57

def digVal (c : Char) : Nat := c.toNat - 48

def digChar (d : Nat) : Char := Char.ofNat (48 + d)

/-- Read a maximal run of decimal digits, accumulating the value. -/
def readDigits : List Char → Nat → Nat × List Char
  | [], acc => (acc, [])
  | c :: rest, acc =>
    if isDig c then readDigits rest (acc * 10 + digVal c) else (acc, c :: rest)

/-- The integer part of Python json's number grammar
`-?(0|[1-9][0-9]*)`: a single `0`, or a nonzero digit followed by a
digit run (so a digit after a leading `0` is left in the remainder,
where the surrounding grammar then rejects it, as CPython does). -/
def parseNatTok : List Char → Option (Nat × List Char)
  | [] => none
  | c :: rest =>
    if c = '0' then some (0, rest)
    else if isDig c then some (readDigits rest (digVal c)) else none

/-- Guard after an integer token: a following `.`, `e` or `E` would
make the number a float in Python; floats are outside the modelled
fragment, so such input is rejected rather than parsed. -/
def numGuard (n : Int) (r : List Char) : Option (Json × List Char) :=
  match r with
  | c :: _ => if c = '.' || c = 'e' || c = 'E' then none else some (.num n, r)
  | [] => some (.num n, [])

/-- A number token: optional minus sign, then the integer grammar. -/
def parseNumber (s : List Char) : Option (Json × List Char) :=
  match s with
  | [] => none
  | c :: rest =>
    if c = '-' then
      match parseNatTok rest with
      | some (n, r) => numGuard (-(n : Int)) r
      | none => none
    else
      match parseNatTok (c :: rest) with
      | some (n, r) => numGuard (n : Int) r
      | none => none

/-- The body of a JSON string after the opening quote, in strict mode:
raw control characters are rejected; the escapes `\" \\ \/ \b \f \n \r
\t` are decoded.  `\uXXXX` escapes are outside the modelled fragment
(no claim concerns them) and are rejected. -/
def parseStringBody : List Char → Option (List Char × List Char)
  | [] => none
  | c :: rest =>
    if c = '"' then some ([], rest)
    else if c = '\\' then
      match rest with
      | [] => none
      | e :: rest2 =>
        let dec : Option Char :=
          if e = '"' then some '"'
          else if e = '\\' then some '\\'
          else if e = '/' then some '/'
          else if e = 'b' then some (Char.ofNat 8)
          else if e = 'f' then some (Char.ofNat 12)
          else if e = 'n' then some '\n'
          else if e = 'r' then some '\r'
          else if e = 't' then some '\t'
          else none
        match dec with
        | some d =>
          match parseStringBody rest2 with
          | some (t, r) => some (d :: t, r)
          | none => none
        | none => none
    else if c.toNat < 32 then none
    else
      match parseStringBody rest with
      | some (t, r) => some (c :: t, r)
      | none => none

/-- Insert a key into a Python dict modelled as an insertion-ordered
association list: an existing key keeps its position and gets the new
value, a fresh key is appended. -/
def dictInsert : List (List Char × Json) → List Char → Json → List (List Char × Json)
  | [], k, v => [(k, v)]
  | (k0, v0) :: rest, k, v =>
    if k0 = k then (k0, v) :: rest else (k0, v0) :: dictInsert rest k v

mutual

/-- One JSON value at the current position (no leading whitespace),
following CPython's `scan_once`. -/
def parseValue : Nat → List Char → Option (Json × List Char)
  | 0, _ => none
  | f + 1, s =>
    match s with
    | [] => none
    | c :: rest =>
      if c = '{' then
        match skipJWS rest with
        | '}' :: r2 => some (.obj [], r2)
        | s1 => parseMembs f s1 []
      else if c = '[' then
        match skipJWS rest with
        | ']' :: r2 => some (.arr [], r2)
        | s1 =>
          match parseElems f s1 with
          | some (es, r) => some (.arr es, r)
          | none => none
      else if c = '"' then
        match parseStringBody rest with
        | some (t, r) => some (.str t, r)
        | none => none
      else if strPre "true".toList s then some (.bool true, s.drop 4)
      else if strPre "false".toList s then some (.bool false, s.drop 5)
      else if strPre "null".toList s then some (.null, s.drop 4)
      else parseNumber s

/-- Comma-separated values until `]` (first element starts here, with
whitespace already skipped). -/
def parseElems : Nat → List Char → Option (List Json × List Char)
  | 0, _ => none
  | f + 1, s =>
    match parseValue f s with
    | none => none
    | some (v, r1) =>
      match skipJWS r1 with
      | ',' :: r2 =>
        match parseElems f (skipJWS r2) with
        | some (vs, r3) => some (v :: vs, r3)
        | none => none
      | ']' :: r2 => some ([v], r2)
      | _ => none

/-- Members of an object after `{` (first key starts here, whitespace
already skipped; the object was not empty).  Keys must be strings;
duplicates overwrite as in a Python dict. -/
def parseMembs : Nat → List Char → List (List Char × Json) → Option (Json × List Char)
  | 0, _, _ => none
  | f + 1, s, acc =>
    match s with
    | '"' :: r0 =>
      match parseStringBody r0 with
      | none => none
      | some (k, r1) =>
        match skipJWS r1 with
        | ':' :: r2 =>
          match parseValue f (skipJWS r2) with
          | none => none
          | some (v, r3) =>
            match skipJWS r3 with
            | ',' :: r4 => parseMembs f (skipJWS r4) (dictInsert acc k v)
            | '}' :: r4 => some (.obj (dictInsert acc k v), r4)
            | _ => none
        | _ => none
    | _ => none

end

/-- `json.loads`: skip leading whitespace, parse one value, require
only whitespace to remain.  The fuel `2 * length + 2` dominates the
recursion depth, which consumes at most two units per character of a
successful parse. -/
def json_loads (s : List Char) : Option Json :=
  match parseValue (2 * s.length + 2) (skipJWS s) with
  | some (v, r) => if skipJWS r = [] then some v else none
  | none => none

/-! ## The normalizer (lines 75-85 of `src/app.py`) -/

/-- Outcome of normalizing one raw model reply: either the parsed
value of the cleaned text, or the `JSONDecodeError` branch, which
keeps the original raw text for the diagnostic display. -/
inductive NormResult where
  | success (v : Json)
  | malformed (raw : List Char)
deriving Repr

/-- The response-normalization path of `detect_and_solve_sudoku`:
clean the reply, then `json.loads` it; a parse failure is the
`except json.JSONDecodeError` branch. -/
def normalizeReply (response_text : List Char) : NormResult :=
  match json_loads (clean_json_response response_text) with
  | some v => .success v
  | none => .malformed response_text

/-! ## A serializer and well-formedness, for the prose-tolerance claim -/

/-- Decimal digits of a natural number, most significant first.  The
fuel argument only bounds the recursion; `n + 1` always suffices. -/
def natDigitsAux : Nat → Nat → List Char
  | 0, _ => []
  | f + 1, n => if n < 10 then [digChar n] else natDigitsAux f (n / 10) ++ [digChar (n % 10)]

def natDigits (n : Nat) : List Char := natDigitsAux (n + 1) n

/-- Decimal text of an integer. -/
def intStr (n : Int) : List Char :=
  if n < 0 then '-' :: natDigits (-n).toNat else natDigits n.toNat

/-- Serialize one string character: `"` and `\` are escaped, all other
characters are emitted raw (well-formed strings contain no control
characters). -/
def escChar (c : Char) : List Char :=
  if c = '"' then ['\\', '"'] else if c = '\\' then ['\\', '\\'] else [c]

def escString : List Char → List Char
  | [] => []
  | c :: rest => escChar c ++ escString rest

def serStr (s : List Char) : List Char := '"' :: escString s ++ ['"']

mutual

/-- A compact JSON serialization (separators `,` and `:`, as in
`json.dumps` with compact separators). -/
def serialize : Json → List Char
  | .null => "null".toList
  | .bool true => "true".toList
  | .bool false => "false".toList
  | .num n => intStr n
  | .str s => serStr s
  | .arr [] => "[]".toList
  | .arr (e :: es) => '[' :: serialize e ++ serElems es ++ [']']
  | .obj [] => "\x7b\x7d".toList
  | .obj (kv :: kvs) =>
    '{' :: serStr kv.1 ++ ':' :: serialize kv.2 ++ serEntries kvs ++ ['}']

def serElems : List Json → List Char
  | [] => []
  | e :: es => ',' :: serialize e ++ serElems es

def serEntries : List (List Char × Json) → List Char
  | [] => []
  | kv :: kvs => ',' :: serStr kv.1 ++ ':' :: serialize kv.2 ++ serEntries kvs

end

/-- A string is in the modelled serializable fragment when it has no
control characters (so the serializer needs no `\u` escapes). -/
def strOkB (s : List Char) : Bool := s.all (fun c => 32 ≤ c.toNat)

/-- No two entries share a key. -/
def keysDistinct : List (List Char × Json) → Bool
  | [] => true
  | (k, _) :: rest => rest.all (fun kv => kv.1 ≠ k) && keysDistinct rest

mutual

/-- Well-formed values: strings (and keys) are control-character free
and object keys are pairwise distinct, so that serialization followed
by `json.loads` is the identity. -/
def wfB : Json → Bool
  | .null => true
  | .bool _ => true
  | .num _ => true
  | .str s => strOkB s
  | .arr es => wfElemsB es
  | .obj kvs => keysDistinct kvs && wfEntriesB kvs

def wfElemsB : List Json → Bool
  | [] => true
  | e :: es => wfB e && wfElemsB es

def wfEntriesB : List (List Char × Json) → Bool
  | [] => true
  | kv :: kvs => strOkB kv.1 && wfB kv.2 && wfEntriesB kvs

end

/-- The digit-value of a digit run, as accumulated by `readDigits`. -/
def valOf (acc : Nat) (ds : List Char) : Nat :=
  ds.foldl (fun a c => a * 10 + digVal c) acc

/-- Text that may legally follow a serialized value: empty, or headed
by a character that neither extends a number token nor turns it into a
float. -/
def sepOk (rest : List Char) : Prop :=
  ∀ c, rest.head? = some c → isDig c = false ∧ c ≠ '.' ∧ c ≠ 'e' ∧ c ≠ 'E'

mutual

/-- Fuel sufficient for `parseValue` to parse the serialization of a
value (each recursion level consumes one unit). -/
def jfuel : Json → Nat
  | .null => 1
  | .bool _ => 1
  | .num _ => 1
  | .str _ => 1
  | .arr [] => 1
  | .arr (e :: es) => 2 + jfuel e + jelemsList es
  | .obj [] => 1
  | .obj (kv :: kvs) => 2 + jfuel kv.2 + jmembsList kvs

/-- Fuel contributed by the remaining elements of an array. -/
def jelemsList : List Json → Nat
  | [] => 0
  | e :: es => 1 + jfuel e + jelemsList es

/-- Fuel contributed by the remaining entries of an object. -/
def jmembsList : List (List Char × Json) → Nat
  | [] => 0
  | kv :: kvs => 1 + jfuel kv.2 + jmembsList kvs

end

/-! ## The schema of the spec (modelled from the spec: the source has
no schema validation step, so the spec's validation contract is stated
here as a predicate used to compare spec and code) -/

/-- Modelled from the spec: a cell must be an integer in `[0, 9]`. -/
def cellOkB : Json → Bool
  | .num n => 0 ≤ n && n ≤ 9
  | _ => false

/-- Modelled from the spec: a row must be an ordered sequence of
exactly 9 such integers. -/
def rowOkB : Json → Bool
  | .arr cells => cells.length = 9 && cells.all cellOkB
  | _ => false

/-- Modelled from the spec: a grid value is an ordered sequence of
exactly 9 sequences of exactly 9 integers in `[0, 9]`. -/
def gridOkB : Json → Bool
  | .arr rows => rows.length = 9 && rows.all rowOkB
  | _ => false

/-- Look a key up in an object value (`None` when the value is not an
object or the key is absent). -/
def objGet (v : Json) (k : List Char) : Option Json :=
  match v with
  | .obj kvs => (kvs.find? (fun kv => kv.1 = k)).map (fun kv => kv.2)
  | _ => none

/-- Modelled from the spec: the payload must be a keyed record with at
least the keys `initial_grid` and `solved_grid`, each a 9 x 9 grid of
integers in `[0, 9]`. -/
def specSchemaOk (v : Json) : Bool :=
  match objGet v "initial_grid".toList, objGet v "solved_grid".toList with
  | some g1, some g2 => gridOkB g1 && gridOkB g2
  | _, _ => false

/-! ## Python truthiness and rendering (`display_grids`, `format_grid`,
and the solve branch of `main`) -/

/-- Python truthiness of a `json.loads` result (`if result:`):
`None`, `False`, `0`, the empty string, list and dict are falsy. -/
def pyTruthy : Json → Bool
  | .null => false
  | .bool b => b
  | .num n => n ≠ 0
  | .str s => s ≠ []
  | .arr es => !es.isEmpty
  | .obj kvs => !kvs.isEmpty

/-- Python `repr` of a string, to first order: single quotes, with
backslash and single quote escaped.  Only reachable through container
cells, which no grid of any claim contains. -/
def pyReprStr (s : List Char) : List Char :=
  '\'' :: (s.foldr (fun c acc =>
    (if c = '\\' then ['\\', '\\']
     else if c = '\'' then ['\\', '\''] else [c]) ++ acc) []) ++ ['\'']

mutual

/-- Python `repr` of a `json.loads` value, used by `str` on
containers. -/
def pyRepr : Json → List Char
  | .null => "None".toList
  | .bool true => "True".toList
  | .bool false => "False".toList
  | .num n => intStr n
  | .str s => pyReprStr s
  | .arr [] => "[]".toList
  | .arr (e :: es) => '[' :: pyRepr e ++ pyReprElems es ++ [']']
  | .obj [] => "\x7b\x7d".toList
  | .obj (kv :: kvs) =>
    '{' :: pyReprStr kv.1 ++ ':' :: ' ' :: pyRepr kv.2 ++ pyReprEntries kvs ++ ['}']

def pyReprElems : List Json → List Char
  | [] => []
  | e :: es => ',' :: ' ' :: pyRepr e ++ pyReprElems es

def pyReprEntries : List (List Char × Json) → List Char
  | [] => []
  | kv :: kvs => ',' :: ' ' :: pyReprStr kv.1 ++ ':' :: ' ' :: pyRepr kv.2 ++ pyReprEntries kvs

end

/-- Python `str` of a `json.loads` value, as used by the f-string in
`format_grid`. -/
def pyStr : Json → List Char
  | .null => "None".toList
  | .bool true => "True".toList
  | .bool false => "False".toList
  | .num n => intStr n
  | .str s => s
  | .arr es => pyRepr (.arr es)
  | .obj kvs => pyRepr (.obj kvs)

/-- Python `n != 0` for a `json.loads` value: `0` and `False` equal
`0`; every other value differs from `0`. -/
def pyNe0 : Json → Bool
  | .num n => n ≠ 0
  | .bool b => b
  | _ => true

/-- One cell as formatted by `f" {n if n != 0 else '_'} "`. -/
def cellTxt (n : Json) : List Char :=
  ' ' :: (if pyNe0 n then pyStr n else ['_']) ++ [' ']

/-- Iterating a Python value with `for x in v`: lists yield elements,
strings yield one-character strings, dicts yield their keys; other
values raise `TypeError` (`none`). -/
def iterItems : Json → Option (List Json)
  | .arr es => some es
  | .str s => some (s.map (fun c => .str [c]))
  | .obj kvs => some (kvs.map (fun kv => .str kv.1))
  | _ => none

/-- Python list concatenation of pieces. -/
def flatCat : List (List Char) → List Char
  | [] => []
  | p :: ps => p ++ flatCat ps

/-- One row string:
`'|' + '|'.join([''.join(formatted_numbers[i:i+3]) for i in range(0, 9, 3)]) + '|'`
(the comprehension's `i` ranges over `0, 3, 6`, shadowing the outer
loop index). -/
def formatRow (items : List Json) : List Char :=
  let nums := items.map cellTxt
  '|' :: flatCat (nums.take 3) ++
    '|' :: flatCat ((nums.drop 3).take 3) ++
      '|' :: flatCat ((nums.drop 6).take 3) ++ ['|']

/-- The `enumerate` loop of `format_grid`: append each row string and,
after rows with index `i` such that `i % 3 == 2 and i < 8`, a line of
dashes as long as the first row string. -/
def fgLoop (sepLen : Nat) : Nat → List (List Char) → List (List Char)
  | _, [] => []
  | i, r :: rs =>
    if i % 3 = 2 && i < 8 then
      r :: List.replicate sepLen '-' :: fgLoop sepLen (i + 1) rs
    else r :: fgLoop sepLen (i + 1) rs

/-- `format_grid` from `src/app.py` lines 98-110.  `none` models an
uncaught `TypeError` from iterating a non-iterable grid or row. -/
def format_grid (grid : Json) : Option (List (List Char)) :=
  match iterItems grid with
  | none => none
  | some rows =>
    match rows.mapM (fun r => (iterItems r).map formatRow) with
    | none => none
    | some frows =>
      match frows with
      | [] => some []
      | r0 :: _ => some (fgLoop r0.length 0 frows)

/-- Observable UI effects of the solve action, in order of emission. -/
inductive Ev where
  | callModel
  | errMsg (m : List Char)
  | txtMsg (m : List Char)
  | successMsg
  | subHdr (m : List Char)
  | gridTxt (lines : List (List Char))
deriving Repr, DecidableEq

/-- An uncaught Python exception escaping the solve action (the
specific exception class is not tracked). -/
inductive PyErr where
  | exc
deriving Repr

/-- `display_grids` from `src/app.py` lines 91-118: skip falsy
results; otherwise render the two grids in order, with each subheader
emitted before its grid text.  A missing key, a non-dict result, or a
non-iterable grid or row raises an uncaught exception after the
effects already emitted. -/
def display_grids (result : Json) : List Ev × Option PyErr :=
  if pyTruthy result = false then ([], none)
  else
    let e1 : List Ev := [.subHdr "Original Puzzle".toList]
    match objGet result "initial_grid".toList with
    | none => (e1, some .exc)
    | some g1 =>
      match format_grid g1 with
      | none => (e1, some .exc)
      | some lines1 =>
        let e2 : List Ev := e1 ++ [.gridTxt lines1, .subHdr "Solved Puzzle".toList]
        match objGet result "solved_grid".toList with
        | none => (e2, some .exc)
        | some g2 =>
          match format_grid g2 with
          | none => (e2, some .exc)
          | some lines2 => (e2 ++ [.gridTxt lines2], none)

/-- What the one network call of a solve action produced: a transport
or remote-service failure carrying a diagnostic, or the raw text of
the first choice of the reply. -/
inductive Outcome where
  | transportError (m : List Char)
  | reply (text : List Char)

/-- `detect_and_solve_sudoku` from `src/app.py` lines 35-89, after the
image has been encoded: one model call, then the normalizer.  A
transport-level failure is the outer `except Exception` branch; a
parse failure is the inner `except json.JSONDecodeError` branch, which
shows the diagnostic and the raw reply text.  Neither branch re-raises
and nothing is retried, so the result is total. -/
def detect_and_solve_sudoku (o : Outcome) : List Ev × Option Json :=
  match o with
  | .transportError m =>
    ([.callModel, .errMsg ("Error processing image: ".toList ++ m)], none)
  | .reply s =>
    match normalizeReply s with
    | .success v => ([.callModel], some v)
    | .malformed raw =>
      ([.callModel, .errMsg "Failed to parse JSON response".toList,
        .txtMsg "Raw response:".toList, .txtMsg raw], none)

/-- The solve branch of `main` (`src/app.py` lines 139-144): run the
extraction; on a truthy result show the success message and the grids.
The second component records an uncaught exception escaping the
action. -/
def solveAction (o : Outcome) : List Ev × Option PyErr :=
  match detect_and_solve_sudoku o with
  | (evs, none) => (evs, none)
  | (evs, some v) =>
    if pyTruthy v then
      match display_grids v with
      | (devs, crash) => (evs ++ .successMsg :: devs, crash)
    else (evs, none)

/-! ## Statement-level definitions used by the claims -/

/-- A raw reply embedding a serialized value in prose, with or without
a markdown fence around the payload. -/
def buildReply (fenced : Bool) (p1 : List Char) (v : Json) (p2 : List Char) : List Char :=
  if fenced then p1 ++ fenceTag ++ '\n' :: serialize v ++ '\n' :: fenceBar ++ p2
  else p1 ++ serialize v ++ p2

/-- A cell of the shape invariant: an integer in `[0, 9]`. -/
def cellShape (c : Json) : Prop := ∃ n : Int, c = .num n ∧ 0 ≤ n ∧ n ≤ 9

/-- A row of the shape invariant: exactly 9 such cells. -/
def rowShape (r : Json) : Prop :=
  ∃ cells, r = .arr cells ∧ cells.length = 9 ∧ ∀ c ∈ cells, cellShape c

/-- A grid of the shape invariant: exactly 9 such rows. -/
def gridShape (g : Json) : Prop :=
  ∃ rows, g = .arr rows ∧ rows.length = 9 ∧ ∀ r ∈ rows, rowShape r

/-- The PuzzleResult shape invariant: both grids present, each 9 rows
of 9 columns of integers in `[0, 9]`. -/
def resultShape (v : Json) : Prop :=
  ∃ g1 g2, objGet v "initial_grid".toList = some g1 ∧
    objGet v "solved_grid".toList = some g2 ∧ gridShape g1 ∧ gridShape g2

/-- Modelled from the spec: one rendered cell, the underscore glyph
for an empty cell and the literal digit otherwise, padded to uniform
width. -/
def specCell (n : Int) : List Char := [' ', if n = 0 then '_' else digChar n.toNat, ' ']

def specCells (r : List Int) : List Char := flatCat (r.map specCell)

/-- Modelled from the spec: one rendered row with vertical separators
every 3 columns. -/
def specRow (r : List Int) : List Char :=
  '|' :: specCells (r.take 3) ++
    '|' :: specCells ((r.drop 3).take 3) ++
      '|' :: specCells ((r.drop 6).take 3) ++ ['|']

/-- Modelled from the spec: the ordered lines of the rendered grid,
with a horizontal separator line after rows 3 and 6 and not after
row 9. -/
def renderSpec (g : List (List Int)) : List (List Char) :=
  (g.take 3).map specRow ++
    List.replicate 31 '-' :: ((g.drop 3).take 3).map specRow ++
      List.replicate 31 '-' :: (g.drop 6).map specRow

/-- A 9 x 9 grid of integers as the corresponding JSON value. -/
def intGrid (g : List (List Int)) : Json :=
  .arr (g.map (fun r => .arr (r.map Json.num)))

/-- Modelled from the spec: an outcome on which the solve call either
fails at transport level or yields a reply whose cleaned text does not
parse. -/
def earlyFailure : Outcome → Prop
  | .transportError _ => True
  | .reply s => json_loads (clean_json_response s) = none

/-! ## Supporting lemmas -/

theorem matchAlt_suffix (s rem : List Char) (h : matchAlt s = some rem) : rem <:+ s := by
  unfold matchAlt at h
  split at h
  · cases h
    exact (List.dropWhile_suffix isREWS).trans (List.drop_suffix 7 s)
  · dsimp only at h
    split at h
    · cases h
      exact (List.drop_suffix 3 _).trans (List.dropWhile_suffix isREWS)
    · cases h

theorem subFenceAux_sublist (f : Nat) (s : List Char) : (subFenceAux f s).Sublist s := by
  induction f generalizing s with
  | zero => exact List.Sublist.refl s
  | succ f ih =>
    match s with
    | [] => exact List.Sublist.refl []
    | c :: rest =>
      rw [subFenceAux]
      cases h : matchAlt (c :: rest) with
      | some rem => exact List.Sublist.trans (ih rem) (matchAlt_suffix _ _ h).sublist
      | none => exact List.Sublist.cons₂ c (ih rest)

theorem subFence_sublist (s : List Char) : (subFence s).Sublist s :=
  subFenceAux_sublist s.length s

theorem dropWhile_ne_append {x : Char} (a t : List Char) (h : x ∉ a) :
    List.dropWhile (fun c => c ≠ x) (a ++ x :: t) = x :: t := by
  have ha : List.dropWhile (fun c => c ≠ x) a = [] := by
    rw [List.dropWhile_eq_nil_iff]
    intro y hy
    simp only [ne_eq, decide_eq_true_eq]
    exact fun he => h (he ▸ hy)
  rw [List.dropWhile_append, ha]
  simp [List.dropWhile_cons]

theorem dropToBrace_of_not_mem (s : List Char) (h : '{' ∉ s) : dropToBrace s = [] := by
  unfold dropToBrace
  rw [List.dropWhile_eq_nil_iff]
  intro x hx
  simp only [ne_eq, decide_eq_true_eq]
  exact fun he => h (he ▸ hx)

theorem clean_split (t a mid d : List Char) (hs : subFence t = a ++ '{' :: mid ++ '}' :: d)
    (ha : '{' ∉ a) (hd : '}' ∉ d) : clean_json_response t = '{' :: mid ++ ['}'] := by
  unfold clean_json_response
  rw [hs]
  unfold dropToBrace
  rw [show a ++ '{' :: mid ++ '}' :: d = a ++ '{' :: (mid ++ '}' :: d) by simp,
    dropWhile_ne_append a _ ha]
  unfold dropAfterBrace
  rw [show ('{' :: (mid ++ '}' :: d)).reverse = d.reverse ++ '}' :: (mid.reverse ++ ['{']) by
      simp,
    dropWhile_ne_append _ _ (by simpa using hd)]
  simp

/-! ## Claims C1, C3, C5, C7, C8, C10 -/

/-- C1 counterexample: a reply whose brace-trimmed text parses as JSON
but violates the spec's schema (both grid values are the integer `0`,
not 9 x 9 sequences) is nevertheless turned into a result by the code,
so the claimed `SchemaViolation` classification does not happen. -/
theorem C1_cex :
    normalizeReply "\x7b\"initial_grid\": 0, \"solved_grid\": 0\x7d".toList =
      NormResult.success (Json.obj [("initial_grid".toList, Json.num 0),
        ("solved_grid".toList, Json.num 0)]) ∧
    specSchemaOk (Json.obj [("initial_grid".toList, Json.num 0),
      ("solved_grid".toList, Json.num 0)]) = false :=
  ⟨rfl, rfl⟩

/-- C1 (amended): the normalizer performs no schema validation —
whenever the cleaned text parses as JSON, the parsed value is returned
as the result regardless of key names, dimensions or cell values, and
a parse failure is the only error classification. -/
theorem C1_no_schema_validation (s : List Char) (v : Json)
    (h : json_loads (clean_json_response s) = some v) :
    normalizeReply s = NormResult.success v := by
  unfold normalizeReply
  rw [h]

/-- C1 witness. -/
theorem C1_w :
    json_loads (clean_json_response "\x7b\"a\": 1\x7d".toList) =
      some (Json.obj [("a".toList, Json.num 1)]) ∧
    normalizeReply "\x7b\"a\": 1\x7d".toList =
      NormResult.success (Json.obj [("a".toList, Json.num 1)]) :=
  ⟨rfl, C1_no_schema_validation _ _ rfl⟩

/-- C3: after fence stripping, the normalizer discards exactly the
characters before the first `\x7b` and after the last `\x7d`; the
remaining substring is the candidate payload handed to the strict
parser. -/
theorem C3_brace_trim (t a mid d : List Char)
    (hs : subFence t = a ++ '{' :: mid ++ '}' :: d)
    (ha : '{' ∉ a) (hd : '}' ∉ d) :
    clean_json_response t = '{' :: mid ++ ['}'] ∧
    normalizeReply t =
      (match json_loads ('{' :: mid ++ ['}']) with
       | some v => NormResult.success v
       | none => NormResult.malformed t) := by
  have h := clean_split t a mid d hs ha hd
  refine ⟨h, ?_⟩
  unfold normalizeReply
  rw [h]

/-- C3 witness. -/
theorem C3_w :
    subFence "x\x7b1\x7dy".toList = ['x'] ++ '{' :: ['1'] ++ '}' :: ['y'] ∧
    '{' ∉ ['x'] ∧ '}' ∉ ['y'] ∧
    clean_json_response "x\x7b1\x7dy".toList = '{' :: ['1'] ++ ['}'] :=
  ⟨rfl, by decide, by decide,
    (C3_brace_trim "x\x7b1\x7dy".toList ['x'] ['1'] ['y'] rfl (by decide) (by decide)).1⟩

/-- C5: a raw reply containing no opening brace is classified as the
parse-failure (`MalformedResponse`) branch, which retains the original
raw text, and no result is produced. -/
theorem C5_no_brace (s : List Char) (h : '{' ∉ s) :
    normalizeReply s = NormResult.malformed s := by
  have h2 : '{' ∉ subFence s := fun hm => h ((subFence_sublist s).subset hm)
  have h3 : clean_json_response s = [] := by
    unfold clean_json_response
    rw [dropToBrace_of_not_mem _ h2]
    rfl
  unfold normalizeReply
  rw [h3]
  rfl

/-- C5 witness (Scenario C of the spec). -/
theorem C5_w :
    '{' ∉ "I cannot process this image.".toList ∧
    normalizeReply "I cannot process this image.".toList =
      NormResult.malformed "I cannot process this image.".toList :=
  ⟨by decide, C5_no_brace _ (by decide)⟩

/-- C7: normalization is a pure function of the raw text — two runs on
the same input yield identical results, whether success or error
classification. -/
theorem C7_deterministic (s : List Char) (r1 r2 : NormResult)
    (h1 : normalizeReply s = r1) (h2 : normalizeReply s = r2) : r1 = r2 :=
  h1.symm.trans h2

/-- C7 witness. -/
theorem C7_w :
    normalizeReply "\x7b\x7d".toList = NormResult.success (Json.obj []) ∧
    NormResult.success (Json.obj []) = NormResult.success (Json.obj []) :=
  ⟨rfl, C7_deterministic "\x7b\x7d".toList _ _ rfl rfl⟩

/-- C8 counterexample: a reply that parses but lacks the expected keys
(`\x7b"a": 1\x7d`) makes the solve action show the success message and
then raise an uncaught exception in the display step, so an error does
escape the solve-action boundary and something beyond a diagnostic is
shown without a complete validated result. -/
theorem C8_cex :
    (solveAction (.reply "\x7b\"a\": 1\x7d".toList)).2 = some PyErr.exc ∧
    Ev.successMsg ∈ (solveAction (.reply "\x7b\"a\": 1\x7d".toList)).1 :=
  ⟨rfl, by decide⟩

/-- C8 (amended): transport failures and unparseable replies are
caught at the boundary of the solve action and converted to a
user-visible message; for those outcomes nothing escapes, the model is
called exactly once (no retry), and neither a success indication nor
any grid is shown.  (A reply that parses to a wrong-shaped truthy
payload, by contrast, escapes the display step uncaught — see the
counterexample.) -/
theorem C8_fail_handling (o : Outcome) (h : earlyFailure o) :
    (solveAction o).2 = none ∧
    (solveAction o).1.count Ev.callModel = 1 ∧
    (∃ m, Ev.errMsg m ∈ (solveAction o).1) ∧
    Ev.successMsg ∉ (solveAction o).1 ∧
    (∀ l, Ev.gridTxt l ∉ (solveAction o).1) := by
  cases o with
  | transportError m =>
    have he : solveAction (.transportError m) =
        ([.callModel, .errMsg ("Error processing image: ".toList ++ m)], none) := rfl
    rw [he]
    exact ⟨rfl, by simp [List.count_cons],
      ⟨"Error processing image: ".toList ++ m, by simp⟩, by simp, fun l => by simp⟩
  | reply s =>
    have hn : normalizeReply s = NormResult.malformed s := by
      unfold normalizeReply
      rw [h]
    have he : solveAction (.reply s) =
        ([.callModel, .errMsg "Failed to parse JSON response".toList,
          .txtMsg "Raw response:".toList, .txtMsg s], none) := by
      unfold solveAction detect_and_solve_sudoku
      dsimp only
      rw [hn]
    rw [he]
    exact ⟨rfl, by simp [List.count_cons],
      ⟨"Failed to parse JSON response".toList, by simp⟩, by simp, fun l => by simp⟩

/-- C8 witness. -/
theorem C8_w :
    earlyFailure (Outcome.reply "It is a refusal.".toList) ∧
    (solveAction (Outcome.reply "It is a refusal.".toList)).2 = none ∧
    Ev.successMsg ∉ (solveAction (Outcome.reply "It is a refusal.".toList)).1 :=
  ⟨rfl, (C8_fail_handling (Outcome.reply "It is a refusal.".toList) rfl).1,
    (C8_fail_handling (Outcome.reply "It is a refusal.".toList) rfl).2.2.2.1⟩

/-- C10: a reply whose cleaned text parses to a falsy value (such as
the empty object) is returned by the extraction call, but the solve
branch treats it as failure by truthiness: no success message, no
grids, and — unlike the error branches — no diagnostic and no raw text
either. -/
theorem C10_falsy (s : List Char) (v : Json)
    (h : json_loads (clean_json_response s) = some v) (hf : pyTruthy v = false) :
    detect_and_solve_sudoku (.reply s) = ([Ev.callModel], some v) ∧
    solveAction (.reply s) = ([Ev.callModel], none) := by
  have hn : normalizeReply s = NormResult.success v := by
    unfold normalizeReply
    rw [h]
  constructor
  · unfold detect_and_solve_sudoku
    dsimp only
    rw [hn]
  · unfold solveAction detect_and_solve_sudoku
    dsimp only
    rw [hn]
    simp [hf]

/-- C10 witness: the empty object. -/
theorem C10_w :
    json_loads (clean_json_response "\x7b\x7d".toList) = some (Json.obj []) ∧
    pyTruthy (Json.obj []) = false ∧
    solveAction (Outcome.reply "\x7b\x7d".toList) = ([Ev.callModel], none) :=
  ⟨rfl, rfl, (C10_falsy "\x7b\x7d".toList (Json.obj []) rfl rfl).2⟩

/-! ## Fence-stripping lemmas -/

theorem fenceTag_eq : fenceTag = tick :: tick :: tick :: 'j' :: 's' :: 'o' :: 'n' :: [] := rfl

theorem fenceBar_eq : fenceBar = tick :: tick :: tick :: [] := rfl

theorem strPre_append_self (t r : List Char) : strPre t (t ++ r) = true := by
  induction t with
  | nil => rfl
  | cons a as ih => simp [strPre, ih]

theorem strPre_fenceTag_false (s : List Char) (h : s.head? ≠ some tick) :
    strPre fenceTag s = false := by
  rw [fenceTag_eq]
  cases s with
  | nil => rfl
  | cons c cs =>
    have hc : ¬ tick = c := fun he => h (by rw [List.head?_cons, ← he])
    simp [strPre, hc]

theorem strPre_fenceBar_false (s : List Char) (h : s.head? ≠ some tick) :
    strPre fenceBar s = false := by
  rw [fenceBar_eq]
  cases s with
  | nil => rfl
  | cons c cs =>
    have hc : ¬ tick = c := fun he => h (by rw [List.head?_cons, ← he])
    simp [strPre, hc]

theorem head_dropWhile_not_tick (s : List Char) (h : tick ∉ s) :
    (s.dropWhile isREWS).head? ≠ some tick := by
  intro hh
  cases hd : s.dropWhile isREWS with
  | nil => rw [hd] at hh; exact Option.noConfusion hh
  | cons c cs =>
    rw [hd, List.head?_cons] at hh
    have hc : c = tick := Option.some.inj hh
    have hm : c ∈ s := ((List.dropWhile_suffix isREWS).sublist.subset) (hd ▸ List.mem_cons_self c cs)
    exact h (hc ▸ hm)

theorem matchAlt_no_tick (s : List Char) (h : tick ∉ s) : matchAlt s = none := by
  have h1 : strPre fenceTag s = false := by
    apply strPre_fenceTag_false
    intro hh
    cases s with
    | nil => exact Option.noConfusion hh
    | cons c cs =>
      rw [List.head?_cons] at hh
      exact h (Option.some.inj hh ▸ List.mem_cons_self c cs)
  have h2 : strPre fenceBar (s.dropWhile isREWS) = false :=
    strPre_fenceBar_false _ (head_dropWhile_not_tick s h)
  unfold matchAlt
  simp [h1, h2]

theorem subFenceAux_no_tick (f : Nat) (s : List Char) (h : tick ∉ s) :
    subFenceAux f s = s := by
  induction f generalizing s with
  | zero => rfl
  | succ f ih =>
    cases s with
    | nil => rfl
    | cons c rest =>
      rw [subFenceAux, matchAlt_no_tick _ h]
      rw [ih rest (fun hm => h (List.mem_cons_of_mem c hm))]

theorem subFence_no_tick (s : List Char) (h : tick ∉ s) : subFence s = s :=
  subFenceAux_no_tick s.length s h

theorem matchAlt_keep (c : Char) (rest : List Char)
    (h1 : c ≠ tick)
    (h2 : ((c :: rest).dropWhile isREWS).head? ≠ some tick) :
    matchAlt (c :: rest) = none := by
  have hp1 : strPre fenceTag (c :: rest) = false := by
    apply strPre_fenceTag_false
    rw [List.head?_cons]
    exact fun hh => h1 (Option.some.inj hh)
  have hp2 : strPre fenceBar ((c :: rest).dropWhile isREWS) = false :=
    strPre_fenceBar_false _ h2
  unfold matchAlt
  simp [hp1, hp2]

theorem dropWhile_ne_nil_of_mem (p : Char → Bool) (l : List Char) (x : Char)
    (hx : x ∈ l) (hp : p x = false) : l.dropWhile p ≠ [] := by
  intro hnil
  have := List.dropWhile_eq_nil_iff.mp hnil x hx
  rw [hp] at this
  exact Bool.noConfusion this

theorem head_dropWhile_append_not_tick (l1 l2 : List Char) (h1 : tick ∉ l1)
    (hne : l1.dropWhile isREWS ≠ []) :
    ((l1 ++ l2).dropWhile isREWS).head? ≠ some tick := by
  rw [List.dropWhile_append]
  cases hd : l1.dropWhile isREWS with
  | nil => exact absurd hd hne
  | cons a as =>
    simp only [hd, List.isEmpty_cons, List.cons_append, List.head?_cons]
    intro hh
    have ha : a = tick := Option.some.inj hh
    have hm : a ∈ l1 := ((List.dropWhile_suffix isREWS).sublist.subset)
      (hd ▸ List.mem_cons_self a as)
    exact h1 (ha ▸ hm)

theorem subFenceAux_step (f : Nat) (c : Char) (rest : List Char) :
    subFenceAux (f + 1) (c :: rest) =
      match matchAlt (c :: rest) with
      | some rem => subFenceAux f rem
      | none => c :: subFenceAux f rest := rfl

theorem subFenceAux_close (f : Nat) (X0 p2 : List Char)
    (hf : (X0 ++ '}' :: '\n' :: (fenceBar ++ p2)).length ≤ f)
    (hX : tick ∉ X0) (hp : tick ∉ p2) :
    subFenceAux f (X0 ++ '}' :: '\n' :: (fenceBar ++ p2)) = X0 ++ '}' :: p2 := by
  induction f generalizing X0 with
  | zero =>
    exfalso
    simp [fenceBar_eq] at hf
  | succ f ih =>
    cases X0 with
    | nil =>
      simp only [List.nil_append]
      have hm1 : matchAlt ('}' :: '\n' :: (fenceBar ++ p2)) = none := by
        apply matchAlt_keep _ _ (by decide)
        have h39 : isREWS '}' = false := rfl
        rw [List.dropWhile_cons, h39]
        simp only [Bool.false_eq_true, if_false, List.head?_cons]
        intro hh
        exact absurd (Option.some.inj hh) (by decide)
      refine (subFenceAux_step f '}' ('\n' :: (fenceBar ++ p2))).trans ?_
      rw [hm1]
      have hlen : 4 + p2.length ≤ f := by
        simp [fenceBar_eq] at hf
        omega
      obtain ⟨f1, rfl⟩ : ∃ f1, f = f1 + 1 := ⟨f - 1, by omega⟩
      have hm2 : matchAlt ('\n' :: (fenceBar ++ p2)) = some p2 := by
        have ht : strPre fenceTag ('\n' :: (fenceBar ++ p2)) = false := by
          apply strPre_fenceTag_false
          rw [List.head?_cons]
          intro hh
          exact absurd (Option.some.inj hh) (by decide)
        have h1 : isREWS '\n' = true := rfl
        have h2 : isREWS tick = false := rfl
        have hw : ('\n' :: (fenceBar ++ p2)).dropWhile isREWS = fenceBar ++ p2 := by
          rw [fenceBar_eq]
          simp [List.dropWhile_cons, h1, h2]
        unfold matchAlt
        simp only [ht, Bool.false_eq_true, if_false, hw]
        rw [strPre_append_self]
        simp only [if_true]
        rw [show (3 : Nat) = fenceBar.length from rfl, List.drop_left]
      dsimp only
      refine (congrArg (List.cons '}') ((subFenceAux_step f1 '\n' (fenceBar ++ p2)).trans ?_))
      rw [hm2]
      exact subFenceAux_no_tick f1 p2 hp
    | cons c X0t =>
      have hct : c ≠ tick := fun he => hX (he ▸ List.mem_cons_self c X0t)
      have hXt : tick ∉ X0t := fun hm => hX (List.mem_cons_of_mem c hm)
      have hshape : (c :: X0t) ++ '}' :: '\n' :: (fenceBar ++ p2) =
          c :: (X0t ++ '}' :: '\n' :: (fenceBar ++ p2)) := by simp
      rw [hshape]
      refine (subFenceAux_step f c (X0t ++ '}' :: '\n' :: (fenceBar ++ p2))).trans ?_
      have hm1 : matchAlt (c :: (X0t ++ '}' :: '\n' :: (fenceBar ++ p2))) = none := by
        apply matchAlt_keep _ _ hct
        have hsplit : c :: (X0t ++ '}' :: '\n' :: (fenceBar ++ p2)) =
            (c :: (X0t ++ ['}'])) ++ ('\n' :: (fenceBar ++ p2)) := by simp
        rw [hsplit]
        apply head_dropWhile_append_not_tick
        · intro hm
          rcases List.mem_cons.mp hm with h | h
          · exact hct h.symm
          · rcases List.mem_append.mp h with h | h
            · exact hXt h
            · rw [List.mem_singleton] at h
              exact absurd h (by decide)
        · exact dropWhile_ne_nil_of_mem _ _ '}'
            (List.mem_cons_of_mem c (List.mem_append_right X0t (List.mem_singleton.mpr rfl)))
            rfl
      rw [hm1]
      dsimp only
      have hfl : (X0t ++ '}' :: '\n' :: (fenceBar ++ p2)).length ≤ f := by
        simp [fenceBar_eq] at hf ⊢
        omega
      rw [ih X0t hfl hXt]
      simp

theorem fenceTag_append (z : List Char) :
    fenceTag ++ z = tick :: tick :: tick :: 'j' :: 's' :: 'o' :: 'n' :: z := by
  rw [fenceTag_eq]
  rfl

theorem matchAlt_fenceTag (z : List Char) :
    matchAlt (fenceTag ++ z) = some (z.dropWhile isREWS) := by
  unfold matchAlt
  rw [strPre_append_self]
  simp only [if_true]
  rw [show (7 : Nat) = fenceTag.length from rfl, List.drop_left]

theorem subFence_fenced (mid p2 : List Char) (hm : tick ∉ mid) (hp : tick ∉ p2) :
    subFence (fenceTag ++ '\n' :: (('{' :: mid) ++ '}' :: '\n' :: (fenceBar ++ p2))) =
      ('{' :: mid) ++ '}' :: p2 := by
  unfold subFence
  have hk : (fenceTag ++ '\n' :: (('{' :: mid) ++ '}' :: '\n' :: (fenceBar ++ p2))).length =
      (mid.length + p2.length + 13) + 1 := by
    simp [fenceTag_eq, fenceBar_eq]
    omega
  have hk2 : (('{' :: mid) ++ '}' :: '\n' :: (fenceBar ++ p2)).length ≤
      mid.length + p2.length + 13 := by
    simp [fenceBar_eq]
    omega
  rw [hk, fenceTag_append]
  refine (subFenceAux_step (mid.length + p2.length + 13) tick _).trans ?_
  have hma : matchAlt (tick :: tick :: tick :: 'j' :: 's' :: 'o' :: 'n' ::
      ('\n' :: (('{' :: mid) ++ '}' :: '\n' :: (fenceBar ++ p2)))) =
      some (('{' :: mid) ++ '}' :: '\n' :: (fenceBar ++ p2)) := by
    rw [← fenceTag_append, matchAlt_fenceTag]
    have h1 : isREWS '\n' = true := rfl
    have h2 : isREWS '{' = false := rfl
    simp [List.dropWhile_cons, h1, h2]
  rw [hma]
  dsimp only
  exact subFenceAux_close _ ('{' :: mid) p2 hk2
    (fun h => by rcases List.mem_cons.mp h with h | h
                 exacts [absurd h (by decide), hm h]) hp

theorem dropToBrace_brace (t : List Char) : dropToBrace ('{' :: t) = '{' :: t := by
  unfold dropToBrace
  rw [List.dropWhile_cons]
  simp

theorem dropAfterBrace_append (m d : List Char) (hd : '}' ∉ d) :
    dropAfterBrace (m ++ '}' :: d) = m ++ ['}'] := by
  unfold dropAfterBrace
  rw [show (m ++ '}' :: d).reverse = d.reverse ++ '}' :: m.reverse by simp]
  rw [dropWhile_ne_append _ _ (by simpa using hd)]
  simp

/-! ## Claim C6 -/

/-- C6 counterexample: in the reply `"\n```json\n\x7b\x7d\n```"` the
opening fence marker is preceded by whitespace, and fence stripping
leaves the literal tag text `json` behind instead of collapsing the
marker to nothing (the `j` of the residue comes from the marker, the
only place a `j` occurs in the input). -/
theorem C6_cex :
    subFence "\n```json\n\x7b\x7d\n```".toList = "json\n\x7b\x7d".toList ∧
    'j' ∈ subFence "\n```json\n\x7b\x7d\n```".toList :=
  ⟨rfl, by decide⟩

/-- C6 (amended): a reply wrapped in a `` ```json `` fence whose
markers are not preceded by whitespace has both markers (and their
adjacent newlines) collapsed to nothing, leaving exactly the
brace-delimited body as the cleaned candidate payload; when the opening
marker is preceded by whitespace, the tag text `json` is left behind,
but it precedes the first brace, so brace trimming still recovers the
enclosed object (see the counterexample). -/
theorem C6_fence_strip (mid : List Char) (hm : tick ∉ mid) :
    clean_json_response (fenceTag ++ '\n' :: (('{' :: mid) ++ '}' :: '\n' :: fenceBar)) =
      '{' :: (mid ++ ['}']) := by
  have h0 : fenceTag ++ '\n' :: (('{' :: mid) ++ '}' :: '\n' :: fenceBar) =
      fenceTag ++ '\n' :: (('{' :: mid) ++ '}' :: '\n' :: (fenceBar ++ [])) := by simp
  unfold clean_json_response
  rw [h0, subFence_fenced mid [] hm (by simp)]
  have h1 : ('{' :: mid) ++ '}' :: ([] : List Char) = '{' :: (mid ++ ['}']) := by simp
  rw [h1, dropToBrace_brace, ← h1, dropAfterBrace_append _ _ (by simp)]

/-- C6 witness. -/
theorem C6_w :
    tick ∉ "\"a\": 1".toList ∧
    clean_json_response
      (fenceTag ++ '\n' :: (('{' :: "\"a\": 1".toList) ++ '}' :: '\n' :: fenceBar)) =
      '{' :: ("\"a\": 1".toList ++ ['}']) :=
  ⟨by decide, C6_fence_strip "\"a\": 1".toList (by decide)⟩

/-! ## Claim C4 -/

theorem cellOkB_iff (c : Json) : cellOkB c = true ↔ cellShape c := by
  cases c <;> simp [cellOkB, cellShape]

theorem rowOkB_iff (r : Json) : rowOkB r = true ↔ rowShape r := by
  cases r <;> simp [rowOkB, rowShape, cellOkB_iff]

theorem gridOkB_iff (g : Json) : gridOkB g = true ↔ gridShape g := by
  cases g <;> simp [gridOkB, gridShape, rowOkB_iff]

theorem specSchemaOk_iff (v : Json) : specSchemaOk v = true ↔ resultShape v := by
  unfold specSchemaOk resultShape
  cases h1 : objGet v "initial_grid".toList with
  | none => simp
  | some g1 =>
    cases h2 : objGet v "solved_grid".toList with
    | none => simp
    | some g2 =>
      simp [gridOkB_iff]

/-- C4 counterexample: the reply whose payload has empty lists for
both grids normalizes successfully, and the produced result violates
the 9 x 9 shape invariant, so the invariant does not hold of every
produced result. -/
theorem C4_cex :
    normalizeReply "\x7b\"initial_grid\": [], \"solved_grid\": []\x7d".toList =
      NormResult.success (Json.obj [("initial_grid".toList, Json.arr []),
        ("solved_grid".toList, Json.arr [])]) ∧
    ¬ resultShape (Json.obj [("initial_grid".toList, Json.arr []),
      ("solved_grid".toList, Json.arr [])]) := by
  refine ⟨rfl, fun h => ?_⟩
  have hb := (specSchemaOk_iff _).mpr h
  exact absurd hb (by decide)

/-- C4 (amended): a result produced by successful normalization is
exactly the parsed payload of the cleaned text, and it satisfies the
9 x 9 shape invariant precisely when the payload passes the spec's
schema predicate — the code itself enforces nothing, so the invariant
holds only for replies that already respect the schema. -/
theorem C4_shape (s : List Char) (v : Json)
    (h : normalizeReply s = NormResult.success v) :
    json_loads (clean_json_response s) = some v ∧
    (resultShape v ↔ specSchemaOk v = true) := by
  constructor
  · unfold normalizeReply at h
    cases hj : json_loads (clean_json_response s) with
    | none => rw [hj] at h; exact NormResult.noConfusion h
    | some w =>
      rw [hj] at h
      cases h
      rfl
  · exact (specSchemaOk_iff v).symm

set_option maxRecDepth 40000 in
/-- C4 witness: a fully valid 9 x 9 payload (Scenario A grids). -/
theorem C4_w :
    normalizeReply "\x7b\"initial_grid\":[[5,3,0,0,7,0,0,0,0],[6,0,0,1,9,5,0,0,0],[0,9,8,0,0,0,0,6,0],[8,0,0,0,6,0,0,0,3],[4,0,0,8,0,3,0,0,1],[7,0,0,0,2,0,0,0,6],[0,6,0,0,0,0,2,8,0],[0,0,0,4,1,9,0,0,5],[0,0,0,0,8,0,0,7,9]],\"solved_grid\":[[5,3,4,6,7,8,9,1,2],[6,7,2,1,9,5,3,4,8],[1,9,8,3,4,2,5,6,7],[8,5,9,7,6,1,4,2,3],[4,2,6,8,5,3,7,9,1],[7,1,3,9,2,4,8,5,6],[9,6,1,5,3,7,2,8,4],[2,8,7,4,1,9,6,3,5],[3,4,5,2,8,6,9,1,7]]\x7d".toList =
      NormResult.success (Json.obj
        [("initial_grid".toList, intGrid
          [[5, 3, 0, 0, 7, 0, 0, 0, 0],
      [6, 0, 0, 1, 9, 5, 0, 0, 0],
      [0, 9, 8, 0, 0, 0, 0, 6, 0],
      [8, 0, 0, 0, 6, 0, 0, 0, 3],
      [4, 0, 0, 8, 0, 3, 0, 0, 1],
      [7, 0, 0, 0, 2, 0, 0, 0, 6],
      [0, 6, 0, 0, 0, 0, 2, 8, 0],
      [0, 0, 0, 4, 1, 9, 0, 0, 5],
      [0, 0, 0, 0, 8, 0, 0, 7, 9]]),
         ("solved_grid".toList, intGrid
          [[5, 3, 4, 6, 7, 8, 9, 1, 2],
      [6, 7, 2, 1, 9, 5, 3, 4, 8],
      [1, 9, 8, 3, 4, 2, 5, 6, 7],
      [8, 5, 9, 7, 6, 1, 4, 2, 3],
      [4, 2, 6, 8, 5, 3, 7, 9, 1],
      [7, 1, 3, 9, 2, 4, 8, 5, 6],
      [9, 6, 1, 5, 3, 7, 2, 8, 4],
      [2, 8, 7, 4, 1, 9, 6, 3, 5],
      [3, 4, 5, 2, 8, 6, 9, 1, 7]])]) ∧
    (json_loads (clean_json_response "\x7b\"initial_grid\":[[5,3,0,0,7,0,0,0,0],[6,0,0,1,9,5,0,0,0],[0,9,8,0,0,0,0,6,0],[8,0,0,0,6,0,0,0,3],[4,0,0,8,0,3,0,0,1],[7,0,0,0,2,0,0,0,6],[0,6,0,0,0,0,2,8,0],[0,0,0,4,1,9,0,0,5],[0,0,0,0,8,0,0,7,9]],\"solved_grid\":[[5,3,4,6,7,8,9,1,2],[6,7,2,1,9,5,3,4,8],[1,9,8,3,4,2,5,6,7],[8,5,9,7,6,1,4,2,3],[4,2,6,8,5,3,7,9,1],[7,1,3,9,2,4,8,5,6],[9,6,1,5,3,7,2,8,4],[2,8,7,4,1,9,6,3,5],[3,4,5,2,8,6,9,1,7]]\x7d".toList) =
      some (Json.obj
        [("initial_grid".toList, intGrid
          [[5, 3, 0, 0, 7, 0, 0, 0, 0],
      [6, 0, 0, 1, 9, 5, 0, 0, 0],
      [0, 9, 8, 0, 0, 0, 0, 6, 0],
      [8, 0, 0, 0, 6, 0, 0, 0, 3],
      [4, 0, 0, 8, 0, 3, 0, 0, 1],
      [7, 0, 0, 0, 2, 0, 0, 0, 6],
      [0, 6, 0, 0, 0, 0, 2, 8, 0],
      [0, 0, 0, 4, 1, 9, 0, 0, 5],
      [0, 0, 0, 0, 8, 0, 0, 7, 9]]),
         ("solved_grid".toList, intGrid
          [[5, 3, 4, 6, 7, 8, 9, 1, 2],
      [6, 7, 2, 1, 9, 5, 3, 4, 8],
      [1, 9, 8, 3, 4, 2, 5, 6, 7],
      [8, 5, 9, 7, 6, 1, 4, 2, 3],
      [4, 2, 6, 8, 5, 3, 7, 9, 1],
      [7, 1, 3, 9, 2, 4, 8, 5, 6],
      [9, 6, 1, 5, 3, 7, 2, 8, 4],
      [2, 8, 7, 4, 1, 9, 6, 3, 5],
      [3, 4, 5, 2, 8, 6, 9, 1, 7]])]) ∧
    (resultShape (Json.obj
        [("initial_grid".toList, intGrid
          [[5, 3, 0, 0, 7, 0, 0, 0, 0],
      [6, 0, 0, 1, 9, 5, 0, 0, 0],
      [0, 9, 8, 0, 0, 0, 0, 6, 0],
      [8, 0, 0, 0, 6, 0, 0, 0, 3],
      [4, 0, 0, 8, 0, 3, 0, 0, 1],
      [7, 0, 0, 0, 2, 0, 0, 0, 6],
      [0, 6, 0, 0, 0, 0, 2, 8, 0],
      [0, 0, 0, 4, 1, 9, 0, 0, 5],
      [0, 0, 0, 0, 8, 0, 0, 7, 9]]),
         ("solved_grid".toList, intGrid
          [[5, 3, 4, 6, 7, 8, 9, 1, 2],
      [6, 7, 2, 1, 9, 5, 3, 4, 8],
      [1, 9, 8, 3, 4, 2, 5, 6, 7],
      [8, 5, 9, 7, 6, 1, 4, 2, 3],
      [4, 2, 6, 8, 5, 3, 7, 9, 1],
      [7, 1, 3, 9, 2, 4, 8, 5, 6],
      [9, 6, 1, 5, 3, 7, 2, 8, 4],
      [2, 8, 7, 4, 1, 9, 6, 3, 5],
      [3, 4, 5, 2, 8, 6, 9, 1, 7]])]) ↔
      specSchemaOk (Json.obj
        [("initial_grid".toList, intGrid
          [[5, 3, 0, 0, 7, 0, 0, 0, 0],
      [6, 0, 0, 1, 9, 5, 0, 0, 0],
      [0, 9, 8, 0, 0, 0, 0, 6, 0],
      [8, 0, 0, 0, 6, 0, 0, 0, 3],
      [4, 0, 0, 8, 0, 3, 0, 0, 1],
      [7, 0, 0, 0, 2, 0, 0, 0, 6],
      [0, 6, 0, 0, 0, 0, 2, 8, 0],
      [0, 0, 0, 4, 1, 9, 0, 0, 5],
      [0, 0, 0, 0, 8, 0, 0, 7, 9]]),
         ("solved_grid".toList, intGrid
          [[5, 3, 4, 6, 7, 8, 9, 1, 2],
      [6, 7, 2, 1, 9, 5, 3, 4, 8],
      [1, 9, 8, 3, 4, 2, 5, 6, 7],
      [8, 5, 9, 7, 6, 1, 4, 2, 3],
      [4, 2, 6, 8, 5, 3, 7, 9, 1],
      [7, 1, 3, 9, 2, 4, 8, 5, 6],
      [9, 6, 1, 5, 3, 7, 2, 8, 4],
      [2, 8, 7, 4, 1, 9, 6, 3, 5],
      [3, 4, 5, 2, 8, 6, 9, 1, 7]])]) = true)) :=
  ⟨rfl, C4_shape _ _ rfl⟩

/-! ## Serialization round trip and claim C2 -/


/- digit lemmas -/

theorem natDigitsAux_irrel (n : Nat) : ∀ f g, n < f → n < g → natDigitsAux f n = natDigitsAux g n := by
  induction n using Nat.strong_induction_on with
  | _ n ih =>
    intro f g hf hg
    obtain ⟨f1, rfl⟩ : ∃ f1, f = f1 + 1 := ⟨f - 1, by omega⟩
    obtain ⟨g1, rfl⟩ : ∃ g1, g = g1 + 1 := ⟨g - 1, by omega⟩
    by_cases h10 : n < 10
    · simp [natDigitsAux, h10]
    · have hd : n / 10 < n := Nat.div_lt_self (by omega) (by omega)
      simp only [natDigitsAux, h10, if_false]
      rw [ih (n / 10) hd f1 g1 (by omega) (by omega)]

theorem natDigits_eq (n : Nat) :
    natDigits n = if n < 10 then [digChar n]
      else natDigits (n / 10) ++ [digChar (n % 10)] := by
  by_cases h10 : n < 10
  · simp [natDigits, natDigitsAux, h10]
  · have hd : n / 10 < n := Nat.div_lt_self (by omega) (by omega)
    simp only [h10, if_false]
    show natDigitsAux (n + 1) n = natDigitsAux (n / 10 + 1) (n / 10) ++ [digChar (n % 10)]
    rw [natDigitsAux_irrel (n / 10) (n / 10 + 1) n (by omega) (by omega)]
    simp only [natDigitsAux, h10, if_false]

theorem digChar_isDig (m : Nat) (h : m < 10) : isDig (digChar m) = true := by
  interval_cases m <;> decide

theorem digVal_digChar (m : Nat) (h : m < 10) : digVal (digChar m) = m := by
  interval_cases m <;> decide

theorem digChar_ne_zero (m : Nat) (h1 : 1 ≤ m) (h2 : m < 10) : digChar m ≠ '0' := by
  interval_cases m <;> decide

theorem natDigits_all_dig (n : Nat) : (natDigits n).all isDig = true := by
  induction n using Nat.strong_induction_on with
  | _ n ih =>
    rw [natDigits_eq]
    by_cases h10 : n < 10
    · simp [h10, digChar_isDig n h10]
    · have hd : n / 10 < n := Nat.div_lt_self (by omega) (by omega)
      simp [h10, ih (n / 10) hd, digChar_isDig (n % 10) (by omega)]

theorem natDigits_head_pos (n : Nat) (h : 1 ≤ n) :
    ∃ d ds, natDigits n = d :: ds ∧ isDig d = true ∧ d ≠ '0' := by
  induction n using Nat.strong_induction_on with
  | _ n ih =>
    rw [natDigits_eq]
    by_cases h10 : n < 10
    · exact ⟨digChar n, [], by simp [h10], digChar_isDig n h10, digChar_ne_zero n h h10⟩
    · have hd : n / 10 < n := Nat.div_lt_self (by omega) (by omega)
      obtain ⟨d, ds, he, hdig, hnz⟩ := ih (n / 10) hd (by omega)
      exact ⟨d, ds ++ [digChar (n % 10)], by simp [h10, he], hdig, hnz⟩

theorem valOf_append (acc : Nat) (a b : List Char) :
    valOf acc (a ++ b) = valOf (valOf acc a) b := by
  unfold valOf
  rw [List.foldl_append]

theorem valOf_natDigits (n : Nat) : ∀ acc,
    valOf acc (natDigits n) = acc * 10 ^ (natDigits n).length + n := by
  induction n using Nat.strong_induction_on with
  | _ n ih =>
    intro acc
    rw [natDigits_eq]
    by_cases h10 : n < 10
    · simp [h10, valOf, digVal_digChar n h10]
    · have hd : n / 10 < n := Nat.div_lt_self (by omega) (by omega)
      simp only [h10, if_false]
      rw [valOf_append, ih (n / 10) hd acc]
      simp [valOf, digVal_digChar (n % 10) (by omega), List.length_append, pow_succ]
      ring_nf
      omega

theorem readDigits_run (ds : List Char) : ∀ rest acc, ds.all isDig = true →
    (∀ c, rest.head? = some c → isDig c = false) →
    readDigits (ds ++ rest) acc = (valOf acc ds, rest) := by
  induction ds with
  | nil =>
    intro rest acc _ hrest
    cases rest with
    | nil => rfl
    | cons c rs =>
      have := hrest c rfl
      simp [readDigits, this, valOf]
  | cons d ds ih =>
    intro rest acc hall hrest
    have hd : isDig d = true := by
      have := List.all_eq_true.mp hall d (List.mem_cons_self d ds)
      simpa using this
    have hds : ds.all isDig = true := by
      rw [List.all_eq_true] at hall ⊢
      exact fun x hx => hall x (List.mem_cons_of_mem d hx)
    have h1 : readDigits ((d :: ds) ++ rest) acc =
        readDigits (ds ++ rest) (acc * 10 + digVal d) := by
      simp [readDigits, hd]
    rw [h1, ih rest (acc * 10 + digVal d) hds hrest]
    simp [valOf]

/- number token round trip -/

theorem parseNatTok_natDigits (n : Nat) (rest : List Char)
    (hrest : ∀ c, rest.head? = some c → isDig c = false) :
    parseNatTok (natDigits n ++ rest) = some (n, rest) := by
  by_cases h0 : n = 0
  · subst h0
    have : natDigits 0 = ['0'] := rfl
    rw [this]
    cases rest with
    | nil => rfl
    | cons c rs => simp [parseNatTok]
  · obtain ⟨d, ds, he, hdig, hnz⟩ := natDigits_head_pos n (by omega)
    have hall : (d :: ds).all isDig = true := he ▸ natDigits_all_dig n
    have hds : ds.all isDig = true := by
      rw [List.all_eq_true] at hall ⊢
      exact fun x hx => hall x (List.mem_cons_of_mem d hx)
    rw [he]
    have hstep : parseNatTok ((d :: ds) ++ rest) = some (readDigits (ds ++ rest) (digVal d)) := by
      have hdz : ¬ d = '0' := hnz
      simp [parseNatTok, hdz, hdig]
    rw [hstep, readDigits_run ds rest (digVal d) hds hrest]
    have hv : valOf (digVal d) ds = n := by
      have h1 : valOf 0 (natDigits n) = n := by
        have := valOf_natDigits n 0
        simpa using this
      rw [he] at h1
      simpa [valOf] using h1
    rw [hv]

theorem numGuard_sep (n : Int) (rest : List Char) (h : sepOk rest) :
    numGuard n rest = some (.num n, rest) := by
  cases rest with
  | nil => rfl
  | cons c rs =>
    obtain ⟨h1, h2, h3, h4⟩ := h c rfl
    simp [numGuard, h2, h3, h4]

theorem intStr_neg_shape (n : Int) (h : n < 0) :
    intStr n = '-' :: natDigits (-n).toNat := by
  unfold intStr
  simp [h]

theorem intStr_nonneg_shape (n : Int) (h : 0 ≤ n) :
    intStr n = natDigits n.toNat := by
  unfold intStr
  simp [not_lt.mpr h, h]

theorem parseNumber_intStr (n : Int) (rest : List Char) (h : sepOk rest) :
    parseNumber (intStr n ++ rest) = some (.num n, rest) := by
  have hdig : ∀ c, rest.head? = some c → isDig c = false := fun c hc => (h c hc).1
  by_cases hneg : n < 0
  · rw [intStr_neg_shape n hneg]
    have hpt := parseNatTok_natDigits (-n).toNat rest hdig
    have hstep : parseNumber (('-' :: natDigits (-n).toNat) ++ rest) =
        numGuard (-((((-n).toNat : Nat)) : Int)) rest := by
      simp [parseNumber, hpt]
    rw [hstep, numGuard_sep _ rest h]
    have hcast : -(((-n).toNat : Int)) = n := by omega
    rw [hcast]
  · obtain ⟨m, rfl⟩ : ∃ m : Nat, n = (m : Int) := ⟨n.toNat, by omega⟩
    have hm : ((m : Int)).toNat = m := by omega
    rw [intStr_nonneg_shape _ (by omega), hm]
    obtain ⟨d, ds, he⟩ : ∃ d ds, natDigits m = d :: ds := by
      by_cases h0 : m = 0
      · exact ⟨'0', [], by rw [h0]; rfl⟩
      · obtain ⟨d, ds, he, _, _⟩ := natDigits_head_pos m (by omega)
        exact ⟨d, ds, he⟩
    have hdm : d ≠ '-' := by
      have hall : (d :: ds).all isDig = true := he ▸ natDigits_all_dig m
      have hd2 : isDig d = true := by
        have := List.all_eq_true.mp hall d (List.mem_cons_self d ds)
        simpa using this
      intro hd
      rw [hd] at hd2
      exact absurd hd2 (by decide)
    have hpt := parseNatTok_natDigits m rest hdig
    rw [he] at hpt ⊢
    simp only [List.cons_append] at hpt
    have hstep : parseNumber ((d :: ds) ++ rest) = numGuard ((m : Nat) : Int) rest := by
      simp [parseNumber, hdm, hpt]
    rw [hstep, numGuard_sep _ rest h]

/- string round trip -/

theorem parseStringBody_round (s : List Char) : ∀ rest, strOkB s = true →
    parseStringBody (escString s ++ '"' :: rest) = some (s, rest) := by
  induction s with
  | nil =>
    intro rest _
    simp only [escString, List.nil_append]
    unfold parseStringBody
    simp
  | cons c cs ih =>
    intro rest hok
    have hc : 32 ≤ c.toNat := by
      have := List.all_eq_true.mp hok c (List.mem_cons_self c cs)
      simpa [strOkB] using this
    have hcs : strOkB cs = true := by
      rw [strOkB, List.all_eq_true] at hok ⊢
      exact fun x hx => hok x (List.mem_cons_of_mem c hx)
    by_cases hq : c = '"'
    · subst hq
      have h1 : escString ('"' :: cs) ++ '"' :: rest =
          '\\' :: '"' :: (escString cs ++ '"' :: rest) := by
        simp [escString, escChar]
      rw [h1]
      unfold parseStringBody
      simp [ih rest hcs]
    · by_cases hb : c = '\\'
      · subst hb
        have h1 : escString ('\\' :: cs) ++ '"' :: rest =
            '\\' :: '\\' :: (escString cs ++ '"' :: rest) := by
          simp [escString, escChar]
        rw [h1]
        unfold parseStringBody
        simp [ih rest hcs]
      · have h1 : escString (c :: cs) ++ '"' :: rest =
            c :: (escString cs ++ '"' :: rest) := by
          simp [escString, escChar, hq, hb]
        rw [h1]
        unfold parseStringBody
        have hlow : ¬ c.toNat < 32 := by omega
        simp [hq, hb, hlow, ih rest hcs]

/- dispatch helpers -/

theorem strPre_head_ne (a b : Char) (pat s : List Char) (h : ¬ a = b) :
    strPre (a :: pat) (b :: s) = false := by
  simp only [strPre, decide_eq_false h, Bool.false_and]

theorem isJWS_false_of_isDig (c : Char) (h : isDig c = true) : isJWS c = false := by
  have hn : 48 ≤ c.toNat ∧ c.toNat ≤ 57 := by
    simpa [isDig] using h
  unfold isJWS
  have h1 : ¬ c = ' ' := fun he => by subst he; exact absurd hn (by decide)
  have h2 : ¬ c = '\t' := fun he => by subst he; exact absurd hn (by decide)
  have h3 : ¬ c = '\n' := fun he => by subst he; exact absurd hn (by decide)
  have h4 : ¬ c = '\r' := fun he => by subst he; exact absurd hn (by decide)
  simp [h1, h2, h3, h4]

theorem skipJWS_cons_of_false (c : Char) (t : List Char) (h : isJWS c = false) :
    skipJWS (c :: t) = c :: t := by
  simp [skipJWS, List.dropWhile_cons, h]

theorem parseValue_isDig (f : Nat) (c : Char) (t : List Char) (hdig : isDig c = true) :
    parseValue (f + 1) (c :: t) = parseNumber (c :: t) := by
  have h1 : ¬ c = '{' := fun he => by rw [he] at hdig; exact absurd hdig (by decide)
  have h2 : ¬ c = '[' := fun he => by rw [he] at hdig; exact absurd hdig (by decide)
  have h3 : ¬ c = '"' := fun he => by rw [he] at hdig; exact absurd hdig (by decide)
  have h4 : ¬ ('t' : Char) = c := fun he => by rw [← he] at hdig; exact absurd hdig (by decide)
  have h5 : ¬ ('f' : Char) = c := fun he => by rw [← he] at hdig; exact absurd hdig (by decide)
  have h6 : ¬ ('n' : Char) = c := fun he => by rw [← he] at hdig; exact absurd hdig (by decide)
  unfold parseValue
  rw [show "true".toList = 't' :: 'r' :: 'u' :: 'e' :: [] from rfl,
    show "false".toList = 'f' :: 'a' :: 'l' :: 's' :: 'e' :: [] from rfl,
    show "null".toList = 'n' :: 'u' :: 'l' :: 'l' :: [] from rfl]
  simp [h1, h2, h3, strPre_head_ne _ _ _ _ h4, strPre_head_ne _ _ _ _ h5,
    strPre_head_ne _ _ _ _ h6]

theorem parseValue_dash (f : Nat) (t : List Char) :
    parseValue (f + 1) ('-' :: t) = parseNumber ('-' :: t) := by
  unfold parseValue
  rw [show "true".toList = 't' :: 'r' :: 'u' :: 'e' :: [] from rfl,
    show "false".toList = 'f' :: 'a' :: 'l' :: 's' :: 'e' :: [] from rfl,
    show "null".toList = 'n' :: 'u' :: 'l' :: 'l' :: [] from rfl]
  have h4 : ¬ ('t' : Char) = '-' := by decide
  have h5 : ¬ ('f' : Char) = '-' := by decide
  have h6 : ¬ ('n' : Char) = '-' := by decide
  simp [strPre_head_ne _ _ _ _ h4, strPre_head_ne _ _ _ _ h5, strPre_head_ne _ _ _ _ h6]

theorem parseValue_num_round (f : Nat) (n : Int) (rest : List Char)
    (hf : 1 ≤ f) (hsep : sepOk rest) :
    parseValue f (intStr n ++ rest) = some (.num n, rest) := by
  obtain ⟨f1, rfl⟩ : ∃ f1, f = f1 + 1 := ⟨f - 1, by omega⟩
  by_cases hneg : n < 0
  · rw [intStr_neg_shape n hneg]
    simp only [List.cons_append]
    rw [parseValue_dash]
    rw [show ('-' :: (natDigits (-n).toNat ++ rest)) = (('-' :: natDigits (-n).toNat) ++ rest)
      from by simp]
    rw [show ('-' :: natDigits (-n).toNat) = intStr n from (intStr_neg_shape n hneg).symm]
    exact parseNumber_intStr n rest hsep
  · obtain ⟨m, rfl⟩ : ∃ m : Nat, n = (m : Int) := ⟨n.toNat, by omega⟩
    have hm : ((m : Int)).toNat = m := by omega
    rw [intStr_nonneg_shape _ (by omega), hm]
    obtain ⟨d, ds, he⟩ : ∃ d ds, natDigits m = d :: ds := by
      by_cases h0 : m = 0
      · exact ⟨'0', [], by rw [h0]; rfl⟩
      · obtain ⟨d, ds, he2, _, _⟩ := natDigits_head_pos m (by omega)
        exact ⟨d, ds, he2⟩
    have hd : isDig d = true := by
      have hall : (d :: ds).all isDig = true := he ▸ natDigits_all_dig m
      have := List.all_eq_true.mp hall d (List.mem_cons_self d ds)
      simpa using this
    rw [he]
    simp only [List.cons_append]
    rw [parseValue_isDig f1 d _ hd]
    rw [show (d :: (ds ++ rest)) = ((d :: ds) ++ rest) from by simp, ← he]
    rw [show natDigits m = intStr (m : Int) from by rw [intStr_nonneg_shape _ (by omega), hm]]
    exact parseNumber_intStr _ rest hsep

/- separators -/

theorem sepOk_nil : sepOk [] := fun _ hc => Option.noConfusion hc

theorem sepOk_comma (t : List Char) : sepOk (',' :: t) := by
  intro c hc
  rw [List.head?_cons] at hc
  cases Option.some.inj hc
  decide

theorem sepOk_rbrack (t : List Char) : sepOk (']' :: t) := by
  intro c hc
  rw [List.head?_cons] at hc
  cases Option.some.inj hc
  decide

theorem sepOk_rbrace (t : List Char) : sepOk ('}' :: t) := by
  intro c hc
  rw [List.head?_cons] at hc
  cases Option.some.inj hc
  decide

/- head shape of a serialization -/

theorem serialize_head_props (v : Json) :
    ∃ c T, serialize v = c :: T ∧ isJWS c = false ∧ c ≠ ']' ∧ c ≠ '}' := by
  cases v with
  | null => exact ⟨'n', _, rfl, by decide, by decide, by decide⟩
  | bool b => cases b
              · exact ⟨'f', _, rfl, by decide, by decide, by decide⟩
              · exact ⟨'t', _, rfl, by decide, by decide, by decide⟩
  | num n =>
    by_cases hneg : n < 0
    · exact ⟨'-', _, by rw [show serialize (Json.num n) = intStr n from rfl,
        intStr_neg_shape n hneg], by decide, by decide, by decide⟩
    · obtain ⟨m, rfl⟩ : ∃ m : Nat, n = (m : Int) := ⟨n.toNat, by omega⟩
      obtain ⟨d, ds, he⟩ : ∃ d ds, natDigits m = d :: ds := by
        by_cases h0 : m = 0
        · exact ⟨'0', [], by rw [h0]; rfl⟩
        · obtain ⟨d, ds, he2, _, _⟩ := natDigits_head_pos m (by omega)
          exact ⟨d, ds, he2⟩
      have hd : isDig d = true := by
        have hall : (d :: ds).all isDig = true := he ▸ natDigits_all_dig m
        have := List.all_eq_true.mp hall d (List.mem_cons_self d ds)
        simpa using this
      refine ⟨d, ds, ?_, isJWS_false_of_isDig d hd, ?_, ?_⟩
      · rw [show serialize (Json.num (m : Int)) = intStr (m : Int) from rfl,
          intStr_nonneg_shape _ (by omega), show ((m : Int)).toNat = m from by omega, he]
      · exact fun hc => by rw [hc] at hd; exact absurd hd (by decide)
      · exact fun hc => by rw [hc] at hd; exact absurd hd (by decide)
  | str s => exact ⟨'"', escString s ++ ['"'], by simp [serialize, serStr], by decide,
      by decide, by decide⟩
  | arr es =>
    cases es with
    | nil => exact ⟨'[', _, rfl, by decide, by decide, by decide⟩
    | cons e es => exact ⟨'[', _, rfl, by decide, by decide, by decide⟩
  | obj kvs =>
    cases kvs with
    | nil => exact ⟨'{', _, rfl, by decide, by decide, by decide⟩
    | cons kv kvs => exact ⟨'{', _, rfl, by decide, by decide, by decide⟩

theorem parseValue_arr_cons (f : Nat) (c : Char) (T : List Char)
    (h1 : isJWS c = false) (h2 : c ≠ ']') :
    parseValue (f + 1) ('[' :: (c :: T)) =
      (match parseElems f (c :: T) with
       | some (es, r) => some (.arr es, r)
       | none => none) := by
  rw [show parseValue (f + 1) ('[' :: (c :: T)) =
    (match skipJWS (c :: T) with
     | ']' :: r2 => some (.arr [], r2)
     | s1 =>
       match parseElems f s1 with
       | some (es, r) => some (.arr es, r)
       | none => none) from rfl]
  rw [skipJWS_cons_of_false c T h1]
  split
  · rename_i heq
    exact absurd (List.head_eq_of_cons_eq heq) h2
  · rfl

theorem dictInsert_fresh (acc : List (List Char × Json)) (k : List Char) (v : Json)
    (h : ∀ p ∈ acc, p.1 ≠ k) :
    dictInsert acc k v = acc ++ [(k, v)] := by
  induction acc with
  | nil => rfl
  | cons p ps ih =>
    have hp : p.1 ≠ k := h p (List.mem_cons_self p ps)
    obtain ⟨k0, v0⟩ := p
    simp only [dictInsert]
    rw [if_neg (by simpa using hp)]
    rw [ih (fun q hq => h q (List.mem_cons_of_mem _ hq))]
    simp

theorem sizeOf_list_pos {α : Type} [SizeOf α] (l : List α) : 1 ≤ sizeOf l := by
  cases l <;> simp_arith

theorem round_all (N : Nat) :
    (∀ v : Json, sizeOf v ≤ N → ∀ f rest, jfuel v ≤ f → wfB v = true → sepOk rest →
       parseValue f (serialize v ++ rest) = some (v, rest)) ∧
    (∀ (e : Json) (es : List Json), sizeOf e + sizeOf es ≤ N →
       ∀ f rest, jelemsList (e :: es) ≤ f → wfElemsB (e :: es) = true → sepOk rest →
       parseElems f (serialize e ++ (serElems es ++ (']' :: rest))) = some (e :: es, rest)) ∧
    (∀ (k : List Char) (v : Json) (kvs : List (List Char × Json))
       (acc : List (List Char × Json)), sizeOf v + sizeOf kvs ≤ N →
       ∀ f rest, jmembsList ((k, v) :: kvs) ≤ f → wfEntriesB ((k, v) :: kvs) = true →
       keysDistinct ((k, v) :: kvs) = true →
       (∀ p ∈ acc, ∀ q ∈ (k, v) :: kvs, p.1 ≠ q.1) → sepOk rest →
       parseMembs f ('"' :: (escString k ++ ('"' :: (':' :: (serialize v ++
         (serEntries kvs ++ ('}' :: rest))))))) acc =
         some (.obj (acc ++ (k, v) :: kvs), rest)) := by
  induction N using Nat.strong_induction_on with
  | _ N ih =>
    refine ⟨?_, ?_, ?_⟩
    · intro v hN f rest hfuel hwf hsep
      cases v with
      | null =>
        obtain ⟨f1, rfl⟩ : ∃ f1, f = f1 + 1 := ⟨f - 1, by simp [jfuel] at hfuel; omega⟩
        rfl
      | bool b =>
        obtain ⟨f1, rfl⟩ : ∃ f1, f = f1 + 1 := ⟨f - 1, by simp [jfuel] at hfuel; omega⟩
        cases b <;> rfl
      | num n =>
        rw [show serialize (Json.num n) = intStr n from rfl]
        refine parseValue_num_round f n rest ?_ hsep
        simp [jfuel] at hfuel
        omega
      | str s =>
        obtain ⟨f1, rfl⟩ : ∃ f1, f = f1 + 1 := ⟨f - 1, by simp [jfuel] at hfuel; omega⟩
        have hs : serialize (Json.str s) ++ rest = '"' :: (escString s ++ '"' :: rest) := by
          simp [serialize, serStr]
        rw [hs]
        rw [show parseValue (f1 + 1) ('"' :: (escString s ++ '"' :: rest)) =
          (match parseStringBody (escString s ++ '"' :: rest) with
           | some (t, r) => some (.str t, r)
           | none => none) from rfl]
        rw [parseStringBody_round s rest hwf]
      | arr es =>
        cases es with
        | nil =>
          obtain ⟨f1, rfl⟩ : ∃ f1, f = f1 + 1 := ⟨f - 1, by simp [jfuel] at hfuel; omega⟩
          rfl
        | cons e es =>
          obtain ⟨f1, rfl⟩ : ∃ f1, f = f1 + 1 := ⟨f - 1, by simp [jfuel] at hfuel; omega⟩
          have hcan : serialize (Json.arr (e :: es)) ++ rest =
              '[' :: (serialize e ++ (serElems es ++ (']' :: rest))) := by
            simp [serialize]
          rw [hcan]
          obtain ⟨c, T, hcT, hws, hrb, _⟩ := serialize_head_props e
          have hT : serialize e ++ (serElems es ++ (']' :: rest)) =
              c :: (T ++ (serElems es ++ (']' :: rest))) := by rw [hcT]; simp
          rw [hT, parseValue_arr_cons f1 c _ hws hrb, ← hT]
          have hsz : 1 ≤ N ∧ sizeOf e + sizeOf es ≤ N - 1 := by
            simp at hN
            omega
          have hPe := (ih (N - 1) (by omega)).2.1 e es hsz.2 f1 rest
            (by simp [jfuel, jelemsList] at hfuel ⊢; omega) hwf hsep
          rw [hPe]
      | obj kvs =>
        cases kvs with
        | nil =>
          obtain ⟨f1, rfl⟩ : ∃ f1, f = f1 + 1 := ⟨f - 1, by simp [jfuel] at hfuel; omega⟩
          rfl
        | cons kv kvs =>
          obtain ⟨k, v⟩ := kv
          obtain ⟨f1, rfl⟩ : ∃ f1, f = f1 + 1 := ⟨f - 1, by simp [jfuel] at hfuel; omega⟩
          have hcan : serialize (Json.obj ((k, v) :: kvs)) ++ rest =
              '{' :: ('"' :: (escString k ++ ('"' :: (':' :: (serialize v ++
                (serEntries kvs ++ ('}' :: rest))))))) := by
            simp [serialize, serStr]
          rw [hcan]
          rw [show parseValue (f1 + 1) ('{' :: ('"' :: (escString k ++ ('"' :: (':' ::
              (serialize v ++ (serEntries kvs ++ ('}' :: rest)))))))) =
            parseMembs f1 ('"' :: (escString k ++ ('"' :: (':' :: (serialize v ++
              (serEntries kvs ++ ('}' :: rest))))))) [] from rfl]
          have hwf2 : keysDistinct ((k, v) :: kvs) = true ∧
              wfEntriesB ((k, v) :: kvs) = true := by
            simpa [wfB] using hwf
          have hsz : 1 ≤ N ∧ sizeOf v + sizeOf kvs ≤ N - 1 := by
            simp at hN
            omega
          have hPm := (ih (N - 1) (by omega)).2.2 k v kvs [] hsz.2 f1 rest
            (by simp [jfuel, jmembsList] at hfuel ⊢; omega) hwf2.2 hwf2.1
            (fun p hp => absurd hp (List.not_mem_nil p)) hsep
          rw [hPm]
          simp
    · intro e es hN f rest hfuel hwf hsep
      obtain ⟨f1, rfl⟩ : ∃ f1, f = f1 + 1 := ⟨f - 1, by simp [jelemsList] at hfuel; omega⟩
      have hwe : wfB e = true ∧ wfElemsB es = true := by simpa [wfElemsB] using hwf
      rw [show parseElems (f1 + 1) (serialize e ++ (serElems es ++ (']' :: rest))) =
        (match parseValue f1 (serialize e ++ (serElems es ++ (']' :: rest))) with
         | none => none
         | some (v, r1) =>
           match skipJWS r1 with
           | ',' :: r2 =>
             (match parseElems f1 (skipJWS r2) with
              | some (vs, r3) => some (v :: vs, r3)
              | none => none)
           | ']' :: r2 => some ([v], r2)
           | _ => none) from rfl]
      have hszN : 1 ≤ N ∧ sizeOf e ≤ N - 1 := by
        have := sizeOf_list_pos es
        omega
      cases es with
      | nil =>
        have hrw : serElems ([] : List Json) ++ (']' :: rest) = ']' :: rest := by
          simp [serElems]
        rw [hrw]
        have hPv := (ih (N - 1) (by omega)).1 e hszN.2 f1 (']' :: rest)
          (by simp [jelemsList] at hfuel; omega) hwe.1 (sepOk_rbrack rest)
        rw [hPv]
        rfl
      | cons e2 es2 =>
        have hrw : serElems (e2 :: es2) ++ (']' :: rest) =
            ',' :: (serialize e2 ++ (serElems es2 ++ (']' :: rest))) := by
          simp [serElems]
        rw [hrw]
        have hPv := (ih (N - 1) (by omega)).1 e hszN.2 f1
          (',' :: (serialize e2 ++ (serElems es2 ++ (']' :: rest))))
          (by simp [jelemsList] at hfuel; omega) hwe.1 (sepOk_comma _)
        rw [hPv]
        change (match parseElems f1 (skipJWS (serialize e2 ++ (serElems es2 ++ (']' :: rest)))) with
           | some (vs, r3) => some (e :: vs, r3)
           | none => none) = some (e :: e2 :: es2, rest)
        obtain ⟨c, T, hcT, hws, _, _⟩ := serialize_head_props e2
        have hT : serialize e2 ++ (serElems es2 ++ (']' :: rest)) =
            c :: (T ++ (serElems es2 ++ (']' :: rest))) := by rw [hcT]; simp
        rw [hT, skipJWS_cons_of_false c _ hws, ← hT]
        have hsz2 : sizeOf e2 + sizeOf es2 ≤ N - 1 := by
          simp at hN
          omega
        have hPe2 := (ih (N - 1) (by omega)).2.1 e2 es2 hsz2 f1 rest
          (by simp [jelemsList] at hfuel ⊢; omega)
          (by simpa [wfElemsB] using hwe.2) hsep
        rw [hPe2]
    · intro k v kvs acc hN f rest hfuel hwf hkd hdisj hsep
      obtain ⟨f1, rfl⟩ : ∃ f1, f = f1 + 1 := ⟨f - 1, by simp [jmembsList] at hfuel; omega⟩
      have hwe0 : (strOkB k = true ∧ wfB v = true) ∧ wfEntriesB kvs = true := by
        simpa [wfEntriesB] using hwf
      have hwe : strOkB k = true ∧ wfB v = true ∧ wfEntriesB kvs = true :=
        ⟨hwe0.1.1, hwe0.1.2, hwe0.2⟩
      rw [show parseMembs (f1 + 1) ('"' :: (escString k ++ ('"' :: (':' :: (serialize v ++
          (serEntries kvs ++ ('}' :: rest))))))) acc =
        (match parseStringBody (escString k ++ ('"' :: (':' :: (serialize v ++
            (serEntries kvs ++ ('}' :: rest)))))) with
         | none => none
         | some (k2, r1) =>
           match skipJWS r1 with
           | ':' :: r2 =>
             (match parseValue f1 (skipJWS r2) with
              | none => none
              | some (v2, r3) =>
                match skipJWS r3 with
                | ',' :: r4 => parseMembs f1 (skipJWS r4) (dictInsert acc k2 v2)
                | '}' :: r4 => some (.obj (dictInsert acc k2 v2), r4)
                | _ => none)
           | _ => none) from rfl]
      rw [parseStringBody_round k _ hwe.1]
      change (match parseValue f1 (skipJWS (serialize v ++ (serEntries kvs ++ ('}' :: rest)))) with
         | none => none
         | some (v2, r3) =>
           match skipJWS r3 with
           | ',' :: r4 => parseMembs f1 (skipJWS r4) (dictInsert acc k v2)
           | '}' :: r4 => some (.obj (dictInsert acc k v2), r4)
           | _ => none) = some (.obj (acc ++ (k, v) :: kvs), rest)
      obtain ⟨c, T, hcT, hws, _, _⟩ := serialize_head_props v
      have hT : serialize v ++ (serEntries kvs ++ ('}' :: rest)) =
          c :: (T ++ (serEntries kvs ++ ('}' :: rest))) := by rw [hcT]; simp
      rw [hT, skipJWS_cons_of_false c _ hws, ← hT]
      have hszN : 1 ≤ N ∧ sizeOf v ≤ N - 1 := by
        have := sizeOf_list_pos kvs
        omega
      have hdins : dictInsert acc k v = acc ++ [(k, v)] :=
        dictInsert_fresh acc k v
          (fun p hp => hdisj p hp (k, v) (List.mem_cons_self _ _))
      cases kvs with
      | nil =>
        have hrw : serEntries ([] : List (List Char × Json)) ++ ('}' :: rest) =
            '}' :: rest := by simp [serEntries]
        rw [hrw]
        have hPv := (ih (N - 1) (by omega)).1 v hszN.2 f1 ('}' :: rest)
          (by simp [jmembsList] at hfuel; omega) hwe.2.1 (sepOk_rbrace rest)
        rw [hPv]
        change some (Json.obj (dictInsert acc k v), rest) =
          some (Json.obj (acc ++ [(k, v)]), rest)
        rw [hdins]
      | cons kv2 kvs2 =>
        obtain ⟨k2, v2⟩ := kv2
        have hrw : serEntries ((k2, v2) :: kvs2) ++ ('}' :: rest) =
            ',' :: ('"' :: (escString k2 ++ ('"' :: (':' :: (serialize v2 ++
              (serEntries kvs2 ++ ('}' :: rest))))))) := by
          simp [serEntries, serStr]
        rw [hrw]
        have hPv := (ih (N - 1) (by omega)).1 v hszN.2 f1
          (',' :: ('"' :: (escString k2 ++ ('"' :: (':' :: (serialize v2 ++
            (serEntries kvs2 ++ ('}' :: rest))))))))
          (by simp [jmembsList] at hfuel; omega) hwe.2.1 (sepOk_comma _)
        rw [hPv]
        change parseMembs f1 ('"' :: (escString k2 ++ ('"' :: (':' :: (serialize v2 ++
            (serEntries kvs2 ++ ('}' :: rest))))))) (dictInsert acc k v) =
          some (Json.obj (acc ++ (k, v) :: (k2, v2) :: kvs2), rest)
        rw [hdins]
        have hsz2 : sizeOf v2 + sizeOf kvs2 ≤ N - 1 := by
          simp at hN
          omega
        have hdisj2 : ∀ p ∈ acc ++ [(k, v)], ∀ q ∈ (k2, v2) :: kvs2, p.1 ≠ q.1 := by
          intro p hp q hq
          rcases List.mem_append.mp hp with hp | hp
          · exact hdisj p hp q (List.mem_cons_of_mem _ hq)
          · rw [List.mem_singleton] at hp
            subst hp
            have hkd2 : ((k2, v2) :: kvs2).all (fun kv => kv.1 ≠ k) = true := by
              have := hkd
              simp [keysDistinct] at this
              rw [List.all_eq_true]
              intro x hx
              rcases List.mem_cons.mp hx with hx | hx
              · subst hx
                simpa using this.1.1
              · simpa using this.1.2 x.1 x.2 hx
            have := List.all_eq_true.mp hkd2 q hq
            simp only [decide_eq_true_eq] at this
            exact fun he => this (he ▸ rfl)
        have hPm2 := (ih (N - 1) (by omega)).2.2 k2 v2 kvs2 (acc ++ [(k, v)]) hsz2 f1 rest
          (by simp [jmembsList] at hfuel ⊢; omega)
          (by simpa [wfEntriesB] using hwe.2.2)
          (by simp [keysDistinct] at hkd ⊢; exact hkd.2)
          hdisj2 hsep
        rw [hPm2]
        simp

theorem natDigits_len_pos (n : Nat) : 1 ≤ (natDigits n).length := by
  rw [natDigits_eq]
  split
  · simp
  · simp

theorem serialize_len_pos (v : Json) : 1 ≤ (serialize v).length := by
  obtain ⟨c, T, hcT, _, _, _⟩ := serialize_head_props v
  rw [hcT]
  simp

theorem jfuel_le (N : Nat) :
    (∀ v : Json, sizeOf v ≤ N → jfuel v ≤ 2 * (serialize v).length) ∧
    (∀ es : List Json, sizeOf es ≤ N → jelemsList es ≤ 2 * (serElems es).length) ∧
    (∀ kvs : List (List Char × Json), sizeOf kvs ≤ N →
      jmembsList kvs ≤ 2 * (serEntries kvs).length) := by
  induction N using Nat.strong_induction_on with
  | _ N ih =>
    refine ⟨?_, ?_, ?_⟩
    · intro v hN
      cases v with
      | null => simp [jfuel, serialize]
      | bool b => cases b <;> simp [jfuel, serialize]
      | num n =>
        have := natDigits_len_pos n.toNat
        have := natDigits_len_pos (-n).toNat
        simp only [jfuel]
        rw [show serialize (Json.num n) = intStr n from rfl]
        unfold intStr
        split <;> simp <;> omega
      | str s => simp [jfuel, serialize, serStr]; omega
      | arr es =>
        cases es with
        | nil => simp [jfuel, serialize]
        | cons e es =>
          have hsz : 1 ≤ N ∧ sizeOf e ≤ N - 1 ∧ sizeOf es ≤ N - 1 := by
            simp at hN
            have := sizeOf_list_pos es
            omega
          have h1 := (ih (N - 1) (by omega)).1 e hsz.2.1
          have h2 := (ih (N - 1) (by omega)).2.1 es hsz.2.2
          have hcan : serialize (Json.arr (e :: es)) =
              '[' :: serialize e ++ serElems es ++ [']'] := rfl
          rw [hcan]
          simp only [jfuel, jelemsList] at *
          simp [List.length_append]
          omega
      | obj kvs =>
        cases kvs with
        | nil => simp [jfuel, serialize]
        | cons kv kvs =>
          obtain ⟨k, v⟩ := kv
          have hsz : 1 ≤ N ∧ sizeOf v ≤ N - 1 ∧ sizeOf kvs ≤ N - 1 := by
            simp at hN
            have := sizeOf_list_pos kvs
            omega
          have h1 := (ih (N - 1) (by omega)).1 v hsz.2.1
          have h2 := (ih (N - 1) (by omega)).2.2 kvs hsz.2.2
          have hcan : serialize (Json.obj ((k, v) :: kvs)) =
              '{' :: serStr k ++ ':' :: serialize v ++ serEntries kvs ++ ['}'] := rfl
          rw [hcan]
          simp only [jfuel, jmembsList] at *
          simp [List.length_append, serStr]
          omega
    · intro es hN
      cases es with
      | nil => simp [jelemsList, serElems]
      | cons e es =>
        have hsz : 1 ≤ N ∧ sizeOf e ≤ N - 1 ∧ sizeOf es ≤ N - 1 := by
          simp at hN
          have := sizeOf_list_pos es
          omega
        have h1 := (ih (N - 1) (by omega)).1 e hsz.2.1
        have h2 := (ih (N - 1) (by omega)).2.1 es hsz.2.2
        simp only [jelemsList, serElems]
        simp [List.length_append]
        omega
    · intro kvs hN
      cases kvs with
      | nil => simp [jmembsList, serEntries]
      | cons kv kvs =>
        obtain ⟨k, v⟩ := kv
        have hsz : 1 ≤ N ∧ sizeOf v ≤ N - 1 ∧ sizeOf kvs ≤ N - 1 := by
          simp at hN
          have := sizeOf_list_pos kvs
          omega
        have h1 := (ih (N - 1) (by omega)).1 v hsz.2.1
        have h2 := (ih (N - 1) (by omega)).2.2 kvs hsz.2.2
        simp only [jmembsList, serEntries]
        simp [List.length_append, serStr]
        omega

theorem json_loads_ser (kvs : List (List Char × Json))
    (hwf : wfB (Json.obj kvs) = true) :
    json_loads (serialize (Json.obj kvs)) = some (Json.obj kvs) := by
  have hfb : jfuel (Json.obj kvs) ≤ 2 * (serialize (Json.obj kvs)).length + 2 := by
    have := (jfuel_le (sizeOf (Json.obj kvs))).1 (Json.obj kvs) le_rfl
    omega
  have h1 := (round_all (sizeOf (Json.obj kvs))).1 (Json.obj kvs) le_rfl
    (2 * (serialize (Json.obj kvs)).length + 2) [] hfb hwf sepOk_nil
  rw [List.append_nil] at h1
  unfold json_loads
  obtain ⟨c, T, hcT, hws, _, _⟩ := serialize_head_props (Json.obj kvs)
  rw [show skipJWS (serialize (Json.obj kvs)) = serialize (Json.obj kvs) from by
    rw [hcT]; exact skipJWS_cons_of_false c T hws]
  rw [h1]
  rfl

theorem strPre_eq_append (p s : List Char) (h : strPre p s = true) : ∃ r, s = p ++ r := by
  induction p generalizing s with
  | nil => exact ⟨s, rfl⟩
  | cons a as ih =>
    cases s with
    | nil => simp [strPre] at h
    | cons b bs =>
      simp only [strPre, Bool.and_eq_true, decide_eq_true_eq] at h
      obtain ⟨rfl, h2⟩ := h
      obtain ⟨r, rfl⟩ := ih bs h2
      exact ⟨r, rfl⟩

theorem matchAlt_split_at_brace (s1 t0 rem : List Char)
    (h : matchAlt (s1 ++ ('{' :: t0)) = some rem) :
    ∃ s1', rem = s1' ++ ('{' :: t0) ∧ s1'.length < s1.length ∧ ∀ c ∈ s1', c ∈ s1 := by
  unfold matchAlt at h
  by_cases hpre : strPre fenceTag (s1 ++ ('{' :: t0)) = true
  · rw [if_pos hpre] at h
    injection h with h
    subst h
    obtain ⟨r, hr⟩ := strPre_eq_append _ _ hpre
    rcases List.append_eq_append_iff.mp hr with ⟨a, ha1, ha2⟩ | ⟨c, hc1, hc2⟩
    · cases a with
      | nil =>
        have hs1 : s1 = fenceTag := by simpa using ha1.symm
        subst hs1
        refine ⟨[], ?_, by decide, by simp⟩
        rw [show (7 : Nat) = fenceTag.length from rfl, List.drop_left]
        rw [List.dropWhile_cons]
        simp [show isREWS '{' = false from rfl]
      | cons x a' =>
        exfalso
        have hx : x = '{' := by
          have := congrArg List.head? ha2
          simpa using this.symm
        have hmem : '{' ∈ fenceTag := by
          rw [ha1, ← hx]
          exact List.mem_append_right s1 (List.mem_cons_self x a')
        exact absurd hmem (by decide)
    · have hdrop : (s1 ++ ('{' :: t0)).drop 7 = c ++ ('{' :: t0) := by
        rw [hc1, List.append_assoc]
        rw [show (7 : Nat) = fenceTag.length from rfl, List.drop_left]
      rw [hdrop, List.dropWhile_append]
      by_cases hce : (c.dropWhile isREWS).isEmpty
      · rw [if_pos hce]
        refine ⟨[], ?_, ?_, by simp⟩
        · rw [List.dropWhile_cons]
          simp [show isREWS '{' = false from rfl]
        · rw [hc1, List.length_append]
          have h7 : fenceTag.length = 7 := rfl
          simp only [List.length_nil]
          omega
      · rw [if_neg hce]
        refine ⟨c.dropWhile isREWS, rfl, ?_, ?_⟩
        · have h1 : (c.dropWhile isREWS).length ≤ c.length :=
            (List.dropWhile_suffix isREWS).sublist.length_le
          rw [hc1, List.length_append]
          have h7 : fenceTag.length = 7 := rfl
          omega
        · intro x hx
          have hxc : x ∈ c := (List.dropWhile_suffix isREWS).sublist.subset hx
          rw [hc1]
          exact List.mem_append_right fenceTag hxc
  · rw [if_neg hpre] at h
    dsimp only at h
    by_cases hbar : strPre fenceBar ((s1 ++ ('{' :: t0)).dropWhile isREWS) = true
    · rw [if_pos hbar] at h
      injection h with h
      subst h
      rw [List.dropWhile_append] at hbar ⊢
      by_cases hse : (s1.dropWhile isREWS).isEmpty
      · exfalso
        rw [if_pos hse, List.dropWhile_cons] at hbar
        simp only [show isREWS '{' = false from rfl, Bool.false_eq_true, if_false] at hbar
        rw [fenceBar_eq] at hbar
        simp only [strPre, Bool.and_eq_true, decide_eq_true_eq] at hbar
        exact absurd hbar.1 (by decide)
      · rw [if_neg hse] at hbar ⊢
        obtain ⟨r, hr⟩ := strPre_eq_append _ _ hbar
        rcases List.append_eq_append_iff.mp hr with ⟨a, ha1, ha2⟩ | ⟨c, hc1, hc2⟩
        · cases a with
          | nil =>
            have hw : s1.dropWhile isREWS = fenceBar := by simpa using ha1.symm
            refine ⟨[], ?_, ?_, by simp⟩
            · rw [hw]
              rw [show (3 : Nat) = fenceBar.length from rfl, List.drop_left]
              simp
            · have h1 : (s1.dropWhile isREWS).length ≤ s1.length :=
                (List.dropWhile_suffix isREWS).sublist.length_le
              rw [hw] at h1
              have h3 : fenceBar.length = 3 := rfl
              simp only [List.length_nil]
              omega
          | cons x a' =>
            exfalso
            have hx : x = '{' := by
              have := congrArg List.head? ha2
              simpa using this.symm
            have hmem : '{' ∈ fenceBar := by
              rw [ha1, ← hx]
              exact List.mem_append_right _ (List.mem_cons_self x a')
            exact absurd hmem (by decide)
        · refine ⟨c, ?_, ?_, ?_⟩
          · rw [hc1, List.append_assoc]
            rw [show (3 : Nat) = fenceBar.length from rfl, List.drop_left]
          · have h1 : (s1.dropWhile isREWS).length ≤ s1.length :=
              (List.dropWhile_suffix isREWS).sublist.length_le
            rw [hc1, List.length_append] at h1
            have h3 : fenceBar.length = 3 := rfl
            omega
          · intro x hx
            have hxw : x ∈ s1.dropWhile isREWS := by
              rw [hc1]
              exact List.mem_append_right fenceBar hx
            exact (List.dropWhile_suffix isREWS).sublist.subset hxw
    · rw [if_neg hbar] at h
      exact Option.noConfusion h

theorem subFenceAux_prose_any (f : Nat) : ∀ (s1 t0 : List Char),
    (s1 ++ ('{' :: t0)).length ≤ f →
    ∃ q1 f1, subFenceAux f (s1 ++ ('{' :: t0)) = q1 ++ subFenceAux f1 ('{' :: t0) ∧
      (∀ c ∈ q1, c ∈ s1) ∧ ('{' :: t0).length ≤ f1 := by
  induction f with
  | zero =>
    intro s1 t0 hf
    rw [List.length_append, List.length_cons] at hf
    exact absurd hf (by omega)
  | succ f ih =>
    intro s1 t0 hf
    cases s1 with
    | nil =>
      refine ⟨[], f + 1, by simp, by simp, ?_⟩
      simpa using hf
    | cons c s1t =>
      cases hma : matchAlt ((c :: s1t) ++ ('{' :: t0)) with
      | none =>
        obtain ⟨q1, f1, he, hm, hlen⟩ := ih s1t t0 (by
          simp only [List.length_append, List.length_cons] at hf ⊢
          omega)
        refine ⟨c :: q1, f1, ?_, ?_, hlen⟩
        · show subFenceAux (f + 1) (c :: (s1t ++ ('{' :: t0))) =
            (c :: q1) ++ subFenceAux f1 ('{' :: t0)
          refine (subFenceAux_step f c (s1t ++ ('{' :: t0))).trans ?_
          rw [show matchAlt (c :: (s1t ++ ('{' :: t0))) = none from hma]
          show c :: subFenceAux f (s1t ++ ('{' :: t0)) = (c :: q1) ++ subFenceAux f1 ('{' :: t0)
          rw [he]
          rfl
        · intro x hx
          rcases List.mem_cons.mp hx with rfl | hx
          · exact List.mem_cons_self _ _
          · exact List.mem_cons_of_mem c (hm x hx)
      | some rem =>
        obtain ⟨s1', hrem, hlt, hmem⟩ := matchAlt_split_at_brace (c :: s1t) t0 rem hma
        obtain ⟨q1, f1, he, hm, hlen⟩ := ih s1' t0 (by
          simp only [List.length_append, List.length_cons] at hf ⊢
          have h2 := hlt
          simp only [List.length_cons] at h2
          omega)
        refine ⟨q1, f1, ?_, fun x hx => hmem x (hm x hx), hlen⟩
        show subFenceAux (f + 1) (c :: (s1t ++ ('{' :: t0))) = q1 ++ subFenceAux f1 ('{' :: t0)
        refine (subFenceAux_step f c (s1t ++ ('{' :: t0))).trans ?_
        rw [show matchAlt (c :: (s1t ++ ('{' :: t0))) = some rem from hma]
        show subFenceAux f rem = q1 ++ subFenceAux f1 ('{' :: t0)
        rw [hrem]
        exact he

theorem subFenceAux_payload (f : Nat) : ∀ (X0 p2 : List Char),
    (X0 ++ '}' :: p2).length ≤ f → tick ∉ X0 →
    ∃ f2, subFenceAux f (X0 ++ '}' :: p2) = X0 ++ '}' :: subFenceAux f2 p2 ∧
      p2.length ≤ f2 := by
  induction f with
  | zero =>
    intro X0 p2 hf _
    rw [List.length_append, List.length_cons] at hf
    exact absurd hf (by omega)
  | succ f ih =>
    intro X0 p2 hf hX
    cases X0 with
    | nil =>
      have hm1 : matchAlt ('}' :: p2) = none := by
        apply matchAlt_keep _ _ (by decide)
        have h39 : isREWS '}' = false := rfl
        rw [List.dropWhile_cons, h39]
        simp only [Bool.false_eq_true, if_false, List.head?_cons]
        intro hh
        exact absurd (Option.some.inj hh) (by decide)
      refine ⟨f, ?_, ?_⟩
      · simp only [List.nil_append]
        refine (subFenceAux_step f '}' p2).trans ?_
        rw [hm1]
      · simp only [List.nil_append, List.length_cons] at hf
        omega
    | cons c X0t =>
      have hct : c ≠ tick := fun he => hX (he ▸ List.mem_cons_self c X0t)
      have hXt : tick ∉ X0t := fun hm => hX (List.mem_cons_of_mem c hm)
      have hm1 : matchAlt (c :: (X0t ++ '}' :: p2)) = none := by
        apply matchAlt_keep _ _ hct
        have hsplit : c :: (X0t ++ '}' :: p2) = (c :: (X0t ++ ['}'])) ++ p2 := by simp
        rw [hsplit]
        apply head_dropWhile_append_not_tick
        · intro hm
          rcases List.mem_cons.mp hm with h | h
          · exact hct h.symm
          · rcases List.mem_append.mp h with h | h
            · exact hXt h
            · rw [List.mem_singleton] at h
              exact absurd h (by decide)
        · exact dropWhile_ne_nil_of_mem _ _ '}'
            (List.mem_cons_of_mem c (List.mem_append_right X0t (List.mem_singleton.mpr rfl)))
            rfl
      obtain ⟨f2, he, hl⟩ := ih X0t p2 (by
        simp only [List.length_append, List.length_cons] at hf ⊢
        omega) hXt
      refine ⟨f2, ?_, hl⟩
      rw [show (c :: X0t) ++ '}' :: p2 = c :: (X0t ++ '}' :: p2) from by simp]
      refine (subFenceAux_step f c (X0t ++ '}' :: p2)).trans ?_
      rw [hm1]
      dsimp only
      rw [he]
      simp

theorem subFence_embedded (p1 mid p2 : List Char) (hm : tick ∉ mid) :
    ∃ q1 q2, subFence (p1 ++ ('{' :: (mid ++ '}' :: p2))) =
      q1 ++ ('{' :: (mid ++ '}' :: q2)) ∧
      (∀ c ∈ q1, c ∈ p1) ∧ q2.Sublist p2 := by
  obtain ⟨q1, f1, he1, hm1, hl1⟩ := subFenceAux_prose_any
    (p1 ++ ('{' :: (mid ++ '}' :: p2))).length p1 (mid ++ '}' :: p2) le_rfl
  obtain ⟨f2, he2, hl2⟩ := subFenceAux_payload f1 ('{' :: mid) p2
    (by
      simp only [List.length_append, List.length_cons] at hl1 ⊢
      omega)
    (by
      intro h
      rcases List.mem_cons.mp h with h | h
      · exact absurd h (by decide)
      · exact hm h)
  refine ⟨q1, subFenceAux f2 p2, ?_, hm1, subFenceAux_sublist f2 p2⟩
  have he2' : subFenceAux f1 ('{' :: (mid ++ '}' :: p2)) =
      '{' :: (mid ++ '}' :: subFenceAux f2 p2) := by
    have h1 : ('{' :: (mid ++ '}' :: p2)) = ('{' :: mid) ++ '}' :: p2 := by simp
    rw [h1, he2]
    simp
  unfold subFence
  rw [he1, he2']

theorem serialize_obj_shape (kvs : List (List Char × Json)) :
    ∃ mid, serialize (Json.obj kvs) = '{' :: (mid ++ ['}']) := by
  cases kvs with
  | nil => exact ⟨[], rfl⟩
  | cons kv kvs =>
    refine ⟨serStr kv.1 ++ ':' :: serialize kv.2 ++ serEntries kvs, ?_⟩
    show '{' :: serStr kv.1 ++ ':' :: serialize kv.2 ++ serEntries kvs ++ ['}'] = _
    simp

theorem clean_embedded (v : Json) (p1 p2 : List Char)
    (hobj : ∃ kvs, v = Json.obj kvs) (ht : tick ∉ serialize v)
    (hb1 : '{' ∉ p1) (hb2 : '}' ∉ p2) :
    clean_json_response (p1 ++ (serialize v ++ p2)) = serialize v := by
  obtain ⟨kvs, rfl⟩ := hobj
  obtain ⟨mid, hS⟩ := serialize_obj_shape kvs
  have htm : tick ∉ mid := fun h => ht (by rw [hS]; simp [h])
  have hshape : p1 ++ (serialize (Json.obj kvs) ++ p2) =
      p1 ++ ('{' :: (mid ++ '}' :: p2)) := by
    rw [hS]
    simp
  rw [hshape]
  obtain ⟨q1, q2, he, hq1, hq2⟩ := subFence_embedded p1 mid p2 htm
  have hq1b : '{' ∉ q1 := fun h => hb1 (hq1 '{' h)
  have hq2b : '}' ∉ q2 := fun h => hb2 (hq2.subset h)
  have hcs := clean_split (p1 ++ ('{' :: (mid ++ '}' :: p2))) q1 mid q2
    (by rw [he]; simp) hq1b hq2b
  rw [hcs, hS]
  simp

/-- C2 (amended): a well-formed JSON object whose serialization
contains no backtick, embedded between arbitrary leading prose without
`\x7b` and arbitrary trailing prose without `\x7d`, is extracted
exactly and parsed back to the very same value.  The prose is
otherwise unconstrained: it may hold any number of markdown fence
markers, tagged or untagged, with or without surrounding whitespace,
and stray backticks, since fence stripping can only delete characters
of the prose and never reaches into a backtick-free payload.
(Backticks inside the payload are eaten by fence stripping — see the
counterexample — the one genuine restriction.) -/
theorem C2_prose_tolerance (v : Json) (p1 p2 : List Char)
    (hobj : ∃ kvs, v = Json.obj kvs) (hwf : wfB v = true) (ht : tick ∉ serialize v)
    (hb1 : '{' ∉ p1) (hb2 : '}' ∉ p2) :
    normalizeReply (p1 ++ (serialize v ++ p2)) = NormResult.success v := by
  have hc := clean_embedded v p1 p2 hobj ht hb1 hb2
  unfold normalizeReply
  rw [hc]
  obtain ⟨kvs, rfl⟩ := hobj
  rw [json_loads_ser kvs hwf]

/-- C2 counterexample: the object whose single field holds the string
of three backticks serializes to a text that the normalizer mangles —
fence stripping deletes the backticks inside the string — so parsing
succeeds but yields a different object than the embedded one, refuting
the claim for arbitrary well-formed JSON objects. -/
theorem C2_cex :
    normalizeReply (buildReply false []
        (Json.obj [("a".toList, Json.str [tick, tick, tick])]) []) =
      NormResult.success (Json.obj [("a".toList, Json.str [])]) ∧
    Json.obj [("a".toList, Json.str [])] ≠
      Json.obj [("a".toList, Json.str [tick, tick, tick])] :=
  ⟨rfl, by simp⟩

/-- C2 witness (Scenario B shape): a tagged markdown fence around the
payload plus inline backtick quoting in both prose segments. -/
theorem C2_w :
    (∃ kvs, Json.obj [("a".toList, Json.num 1)] = Json.obj kvs) ∧
    wfB (Json.obj [("a".toList, Json.num 1)]) = true ∧
    tick ∉ serialize (Json.obj [("a".toList, Json.num 1)]) ∧
    '{' ∉ "Model reply: the `solved` grid follows.\n```json\n".toList ∧
    '}' ∉ "\n```\nAll 81 cells are `filled`.".toList ∧
    tick ∈ "Model reply: the `solved` grid follows.\n```json\n".toList ∧
    tick ∈ "\n```\nAll 81 cells are `filled`.".toList ∧
    normalizeReply ("Model reply: the `solved` grid follows.\n```json\n".toList ++
        (serialize (Json.obj [("a".toList, Json.num 1)]) ++
          "\n```\nAll 81 cells are `filled`.".toList)) =
      NormResult.success (Json.obj [("a".toList, Json.num 1)]) :=
  ⟨⟨_, rfl⟩, rfl, by decide, by decide, by decide, by decide, by decide,
    C2_prose_tolerance _ _ _ ⟨_, rfl⟩ rfl (by decide) (by decide) (by decide)⟩

/-! ## Claim C9 -/


theorem cellTxt_spec (n : Int) (h0 : 0 ≤ n) (h9 : n ≤ 9) :
    cellTxt (Json.num n) = specCell n := by
  interval_cases n <;> rfl

theorem formatRow_spec (r : List Int) (hc : ∀ n ∈ r, 0 ≤ n ∧ n ≤ 9) :
    formatRow (r.map Json.num) = specRow r := by
  have hmap : (r.map Json.num).map cellTxt = r.map specCell := by
    rw [List.map_map]
    exact List.map_congr_left (fun n hn => cellTxt_spec n (hc n hn).1 (hc n hn).2)
  unfold formatRow specRow specCells
  simp only [hmap, List.map_take, List.map_drop]

theorem mapM_option_map_all {α β : Type} (l : List α) (f : α → Option β) (g : α → β)
    (h : ∀ x ∈ l, f x = some (g x)) : l.mapM f = some (l.map g) := by
  induction l with
  | nil => rfl
  | cons a l ih =>
    rw [List.mapM_cons, h a (List.mem_cons_self a l),
      ih (fun x hx => h x (List.mem_cons_of_mem a hx))]
    rfl

theorem flatCat_specCell_len (l : List Int) :
    (flatCat (l.map specCell)).length = 3 * l.length := by
  induction l with
  | nil => rfl
  | cons n l ih =>
    show (specCell n ++ flatCat (l.map specCell)).length = 3 * (l.length + 1)
    rw [List.length_append, ih]
    simp [specCell]
    omega

theorem specRow_len (r : List Int) (h : r.length = 9) : (specRow r).length = 31 := by
  unfold specRow specCells
  simp only [List.length_cons, List.length_append, flatCat_specCell_len,
    List.length_take, List.length_drop, List.length_nil, h]
  omega

theorem list_nine {α : Type} (l : List α) (hl : l.length = 9) :
    ∃ a b c d e f g h i, l = [a, b, c, d, e, f, g, h, i] := by
  obtain ⟨a, l, rfl⟩ := List.exists_of_length_succ l hl
  simp only [List.length_cons] at hl
  obtain ⟨b, l, rfl⟩ := List.exists_of_length_succ l (show l.length = 7 + 1 by omega)
  simp only [List.length_cons] at hl
  obtain ⟨c, l, rfl⟩ := List.exists_of_length_succ l (show l.length = 6 + 1 by omega)
  simp only [List.length_cons] at hl
  obtain ⟨d, l, rfl⟩ := List.exists_of_length_succ l (show l.length = 5 + 1 by omega)
  simp only [List.length_cons] at hl
  obtain ⟨e, l, rfl⟩ := List.exists_of_length_succ l (show l.length = 4 + 1 by omega)
  simp only [List.length_cons] at hl
  obtain ⟨f, l, rfl⟩ := List.exists_of_length_succ l (show l.length = 3 + 1 by omega)
  simp only [List.length_cons] at hl
  obtain ⟨g, l, rfl⟩ := List.exists_of_length_succ l (show l.length = 2 + 1 by omega)
  simp only [List.length_cons] at hl
  obtain ⟨h, l, rfl⟩ := List.exists_of_length_succ l (show l.length = 1 + 1 by omega)
  simp only [List.length_cons] at hl
  obtain ⟨i, l, rfl⟩ := List.exists_of_length_succ l (show l.length = 0 + 1 by omega)
  simp only [List.length_cons] at hl
  have : l = [] := List.length_eq_zero.mp (by omega)
  subst this
  exact ⟨a, b, c, d, e, f, g, h, i, rfl⟩

theorem mapM_rows (l : List (List Int)) (hc : ∀ r ∈ l, ∀ n ∈ r, 0 ≤ n ∧ n ≤ 9) :
    (l.map (fun r => Json.arr (r.map Json.num))).mapM
      (fun r => (iterItems r).map formatRow) = some (l.map specRow) := by
  induction l with
  | nil => rfl
  | cons r l ih =>
    rw [List.map_cons, List.mapM_cons]
    have hf : (iterItems (Json.arr (r.map Json.num))).map formatRow =
        some (specRow r) := by
      show some (formatRow (r.map Json.num)) = some (specRow r)
      rw [formatRow_spec r (hc r (List.mem_cons_self r l))]
    rw [hf, ih (fun r2 h2 => hc r2 (List.mem_cons_of_mem r h2))]
    rfl

/-- C9: for every 9 x 9 grid of integers in `[0, 9]`, `format_grid`
produces exactly the lines described by the spec: vertical separators
every 3 columns, horizontal separator lines after rows 3 and 6 (and
not after row 9), an underscore for each 0 cell and the literal digit
otherwise, each cell padded to width 3. -/
theorem C9_renderer (g : List (List Int)) (h9 : g.length = 9)
    (hrows : ∀ r ∈ g, r.length = 9) (hcells : ∀ r ∈ g, ∀ n ∈ r, 0 ≤ n ∧ n ≤ 9) :
    format_grid (intGrid g) = some (renderSpec g) := by
  obtain ⟨a, b, c, d, e, f, g2, h, i, rfl⟩ := list_nine g h9
  have hM := mapM_rows [a, b, c, d, e, f, g2, h, i] hcells
  have h1 : format_grid (intGrid [a, b, c, d, e, f, g2, h, i]) =
      (match ([a, b, c, d, e, f, g2, h, i].map
          (fun r => Json.arr (r.map Json.num))).mapM
          (fun r => (iterItems r).map formatRow) with
       | none => none
       | some frows =>
         match frows with
         | [] => some []
         | r0 :: _ => some (fgLoop r0.length 0 frows)) := rfl
  rw [h1, hM]
  show some (fgLoop (specRow a).length 0
    [specRow a, specRow b, specRow c, specRow d, specRow e,
      specRow f, specRow g2, specRow h, specRow i]) =
    some (renderSpec [a, b, c, d, e, f, g2, h, i])
  rw [specRow_len a (hrows a (by simp))]
  rfl

/-- C9 witness: the Scenario A initial grid. -/
theorem C9_w :
    (([[5, 3, 0, 0, 7, 0, 0, 0, 0], [6, 0, 0, 1, 9, 5, 0, 0, 0], [0, 9, 8, 0, 0, 0, 0, 6, 0], [8, 0, 0, 0, 6, 0, 0, 0, 3], [4, 0, 0, 8, 0, 3, 0, 0, 1], [7, 0, 0, 0, 2, 0, 0, 0, 6], [0, 6, 0, 0, 0, 0, 2, 8, 0], [0, 0, 0, 4, 1, 9, 0, 0, 5], [0, 0, 0, 0, 8, 0, 0, 7, 9]] : List (List Int)).length = 9 ∧
      (∀ r ∈ ([[5, 3, 0, 0, 7, 0, 0, 0, 0], [6, 0, 0, 1, 9, 5, 0, 0, 0], [0, 9, 8, 0, 0, 0, 0, 6, 0], [8, 0, 0, 0, 6, 0, 0, 0, 3], [4, 0, 0, 8, 0, 3, 0, 0, 1], [7, 0, 0, 0, 2, 0, 0, 0, 6], [0, 6, 0, 0, 0, 0, 2, 8, 0], [0, 0, 0, 4, 1, 9, 0, 0, 5], [0, 0, 0, 0, 8, 0, 0, 7, 9]] : List (List Int)), r.length = 9) ∧
      (∀ r ∈ ([[5, 3, 0, 0, 7, 0, 0, 0, 0], [6, 0, 0, 1, 9, 5, 0, 0, 0], [0, 9, 8, 0, 0, 0, 0, 6, 0], [8, 0, 0, 0, 6, 0, 0, 0, 3], [4, 0, 0, 8, 0, 3, 0, 0, 1], [7, 0, 0, 0, 2, 0, 0, 0, 6], [0, 6, 0, 0, 0, 0, 2, 8, 0], [0, 0, 0, 4, 1, 9, 0, 0, 5], [0, 0, 0, 0, 8, 0, 0, 7, 9]] : List (List Int)), ∀ n ∈ r, 0 ≤ n ∧ n ≤ 9)) ∧
    format_grid (intGrid [[5, 3, 0, 0, 7, 0, 0, 0, 0], [6, 0, 0, 1, 9, 5, 0, 0, 0], [0, 9, 8, 0, 0, 0, 0, 6, 0], [8, 0, 0, 0, 6, 0, 0, 0, 3], [4, 0, 0, 8, 0, 3, 0, 0, 1], [7, 0, 0, 0, 2, 0, 0, 0, 6], [0, 6, 0, 0, 0, 0, 2, 8, 0], [0, 0, 0, 4, 1, 9, 0, 0, 5], [0, 0, 0, 0, 8, 0, 0, 7, 9]]) =
      some (renderSpec [[5, 3, 0, 0, 7, 0, 0, 0, 0], [6, 0, 0, 1, 9, 5, 0, 0, 0], [0, 9, 8, 0, 0, 0, 0, 6, 0], [8, 0, 0, 0, 6, 0, 0, 0, 3], [4, 0, 0, 8, 0, 3, 0, 0, 1], [7, 0, 0, 0, 2, 0, 0, 0, 6], [0, 6, 0, 0, 0, 0, 2, 8, 0], [0, 0, 0, 4, 1, 9, 0, 0, 5], [0, 0, 0, 0, 8, 0, 0, 7, 9]]) :=
  ⟨⟨rfl, by decide, by decide⟩,
    C9_renderer [[5, 3, 0, 0, 7, 0, 0, 0, 0], [6, 0, 0, 1, 9, 5, 0, 0, 0], [0, 9, 8, 0, 0, 0, 0, 6, 0], [8, 0, 0, 0, 6, 0, 0, 0, 3], [4, 0, 0, 8, 0, 3, 0, 0, 1], [7, 0, 0, 0, 2, 0, 0, 0, 6], [0, 6, 0, 0, 0, 0, 2, 8, 0], [0, 0, 0, 4, 1, 9, 0, 0, 5], [0, 0, 0, 0, 8, 0, 0, 7, 9]] rfl (by decide) (by decide)⟩
